import Mathlib

/-!
Formal model of the lab_scheduler service (src/app): the in-memory store
(storage.py), the data model (models.py), the configuration (config.py),
the branch-FIFO scheduler with its worker loop (scheduler.py), and the
workflow progress aggregation.

Modelling conventions, kept uniform through the file:

* uuid identifiers for jobs and workflows are modelled by a fresh natural
  number drawn from a counter (`Store.nextId`); user ids, branch ids and
  file paths stay opaque strings, as in the source.
* `datetime.utcnow()` timestamps are modelled by the natural-number clock
  `SchedState.now`, advanced by an explicit `tick` transition.
* `float` progress values are modelled by rationals.
* Python dicts are modelled by association lists (`alookup` / `aset` /
  `aerase`), Python sets by duplicate-free lists, `collections.deque` by
  lists used at the front and the back.
* The asyncio concurrency of scheduler.py is modelled by a small-step
  transition system.  A transition is exactly the code that runs between
  two genuine suspension points of the event loop.  In this code base the
  store lock and the scheduler lock are never held across an await, the
  ready queue is unbounded (put never blocks), and `Queue.get` returns
  without yielding when an item is available, so the only real suspension
  points are: `await self._ready_queue.get()` on an empty queue, the
  `await asyncio.sleep(0.05)` inside the active-user gate loop of
  `_worker_loop`, and the ten `await asyncio.sleep(0.3)` calls inside
  `_execute_job`.  Each worker task therefore is a small state machine
  (`WPhase`), and `stepFn` enumerates the atomic blocks: `fetch` (take a
  job id from the ready queue and run until the job is dispatched, parked
  at the gate, or skipped), `retry` (wake from the gate sleep and re-check
  the gate; note the code does not re-check the job state here), and `run`
  (wake from one of the executor sleeps; the tenth wake also performs the
  completion block, whose code contains no suspension point).
* `SchedState.startLog` is ghost instrumentation: it records every
  dispatch performed by a worker (the job, its user, the job state the
  record had at that moment, whether the job was at the head of its branch
  queue, and the clock).  It influences no behaviour.
-/

namespace LabScheduler

set_option maxRecDepth 100000

/-- config.py `Settings` (pydantic defaults). -/
structure Settings where
  MAX_WORKERS : Nat
  MAX_ACTIVE_USERS : Nat
  USER_JOB_RATE_LIMIT : Nat
  USER_JOB_RATE_INTERVAL_SECONDS : ℚ
  TILE_SIZE : Nat
  TILE_OVERLAP : Nat
  PREVIEW_MAX_DIM_PX : Nat
  RESULTS_DIR : String
deriving DecidableEq

/-- config.py `settings = Settings()` with the declared defaults. -/
def settings : Settings := ⟨4, 3, 20, 10, 512, 64, 1024, "results"⟩

/-- models.py `JobType`. -/
inductive JobType where
  | CELL_SEGMENTATION : JobType
  | TISSUE_MASK : JobType
deriving DecidableEq

/-- models.py `JobState`. -/
inductive JobState where
  | PENDING : JobState
  | RUNNING : JobState
  | SUCCEEDED : JobState
  | FAILED : JobState
  | CANCELLED : JobState
deriving DecidableEq

/-- models.py `WorkflowStatus`. -/
inductive WorkflowStatus where
  | PENDING : WorkflowStatus
  | RUNNING : WorkflowStatus
  | SUCCEEDED : WorkflowStatus
  | FAILED : WorkflowStatus
deriving DecidableEq

/-- models.py `WorkflowCreate`. -/
structure WorkflowCreate where
  name : String
deriving DecidableEq

/-- models.py `Workflow`. -/
structure Workflow where
  workflow_id : Nat
  user_id : String
  name : String
  status : WorkflowStatus
  progress : ℚ
  created_at : Nat
deriving DecidableEq

/-- models.py `JobCreate`.  `params : Dict[str, Any]` is modelled as a
string-to-string association list; no code under scrutiny reads it. -/
structure JobCreate where
  workflow_id : Nat
  branch_id : String
  job_type : JobType
  image_path : String
  params : List (String × String)
deriving DecidableEq

/-- models.py `Job`.  Note the model declares `completed_at` and
`error_message`; storage.py writes under the keys `finished_at` and
`error`, which are not fields of this model. -/
structure Job where
  job_id : Nat
  workflow_id : Nat
  user_id : String
  branch_id : String
  job_type : JobType
  image_path : String
  params : List (String × String)
  state : JobState
  progress : ℚ
  created_at : Nat
  started_at : Option Nat
  completed_at : Option Nat
  result_path : Option String
  error_message : Option String
deriving DecidableEq

/-! Association-list helpers modelling Python dict operations. -/

/-- Dict lookup: `d.get(k)`. -/
def alookup {α β : Type} [DecidableEq α] : List (α × β) → α → Option β
  | [], _ => none
  | (k₁, v₁) :: t, k => if k₁ = k then some v₁ else alookup t k

/-- Dict assignment: `d[k] = v` (replace the binding, else append). -/
def aset {α β : Type} [DecidableEq α] : List (α × β) → α → β → List (α × β)
  | [], k, v => [(k, v)]
  | (k₁, v₁) :: t, k, v => if k₁ = k then (k, v) :: t else (k₁, v₁) :: aset t k v

/-- Dict deletion: `d.pop(k, None)`. -/
def aerase {α β : Type} [DecidableEq α] : List (α × β) → α → List (α × β)
  | [], _ => []
  | (k₁, v₁) :: t, k => if k₁ = k then t else (k₁, v₁) :: aerase t k

/-- storage.py `Store`: workflows and jobs keyed by id, plus the
creation-ordered `workflow_id -> [job_id]` map.  `nextId` is the fresh-uuid
counter. -/
structure Store where
  workflows : List Workflow
  jobs : List Job
  workflow_jobs : List (Nat × List Nat)
  nextId : Nat
deriving DecidableEq

def Store.empty : Store := ⟨[], [], [], 0⟩

/-- storage.py `Store.get_workflow`. -/
def Store.get_workflow (st : Store) (wid : Nat) : Option Workflow :=
  st.workflows.find? (fun w => w.workflow_id == wid)

/-- storage.py `Store.create_workflow`: fresh id, PENDING, progress 0,
and an empty entry in `_workflow_jobs` (`setdefault(wid, [])`). -/
def Store.create_workflow (st : Store) (user_id : String) (p : WorkflowCreate)
    (now : Nat) : Store × Workflow :=
  let wf : Workflow := ⟨st.nextId, user_id, p.name, WorkflowStatus.PENDING, 0, now⟩
  let wjs := match alookup st.workflow_jobs wf.workflow_id with
    | some l => aset st.workflow_jobs wf.workflow_id l
    | none => aset st.workflow_jobs wf.workflow_id []
  (⟨st.workflows ++ [wf], st.jobs, wjs, st.nextId + 1⟩, wf)

/-- storage.py `Store.update_workflow`: `self._workflows[wf.workflow_id] = wf`. -/
def Store.update_workflow (st : Store) (wf : Workflow) : Store :=
  if (st.workflows.find? (fun w => w.workflow_id == wf.workflow_id)).isSome then
    { st with workflows :=
        st.workflows.map (fun w => if w.workflow_id == wf.workflow_id then wf else w) }
  else
    { st with workflows := st.workflows ++ [wf] }

/-- storage.py `Store.get_job`. -/
def Store.get_job (st : Store) (jid : Nat) : Option Job :=
  st.jobs.find? (fun j => j.job_id == jid)

/-- storage.py `Store.create_job`: builds a PENDING job and appends its id
to `_workflow_jobs.setdefault(payload.workflow_id, [])`.  Note there is no
check that the workflow exists or belongs to `user_id`. -/
def Store.create_job (st : Store) (user_id : String) (p : JobCreate)
    (now : Nat) : Store × Job :=
  let job : Job := ⟨st.nextId, p.workflow_id, user_id, p.branch_id, p.job_type,
    p.image_path, p.params, JobState.PENDING, 0, now, none, none, none, none⟩
  let prev := (alookup st.workflow_jobs p.workflow_id).getD []
  (⟨st.workflows, st.jobs ++ [job],
    aset st.workflow_jobs p.workflow_id (prev ++ [job.job_id]),
    st.nextId + 1⟩, job)

/-- The record built by `Store.create_job` (named for the proofs). -/
def freshJob (st : Store) (user_id : String) (p : JobCreate) (now : Nat) : Job :=
  ⟨st.nextId, p.workflow_id, user_id, p.branch_id, p.job_type,
    p.image_path, p.params, JobState.PENDING, 0, now, none, none, none, none⟩

/-- storage.py `Store.list_jobs_for_workflow_id` (internal helper, no user
filter): `[self._jobs[jid] for jid in ids]`. -/
def Store.list_jobs_for_workflow_id (st : Store) (wid : Nat) : List Job :=
  ((alookup st.workflow_jobs wid).getD []).filterMap st.get_job

/-- The record produced from `data = job.model_dump()` with the updates of
`Store.set_job_state` applied.  `data["finished_at"]` and `data["error"]`
insert keys that are not fields of the `Job` model (which has
`completed_at` / `error_message`); pydantic `BaseModel` silently ignores
unknown keyword arguments, so `Job(**data)` drops them — the two
parameters therefore do not appear on the right-hand side. -/
def applyJobUpdate (job : Job) (state : JobState) (progress : Option ℚ)
    (started_at : Option Nat) (result_path : Option String) : Job :=
  { job with
    state := state,
    progress := match progress with | some p => p | none => job.progress,
    started_at := match started_at with | some t => some t | none => job.started_at,
    result_path := match result_path with | some r => some r | none => job.result_path }

/-- storage.py `Store.set_job_state`: returns `None` and leaves the store
unchanged when the job id is unknown; otherwise rebuilds the record from
its dump with the requested state and optional updates and stores it.
No transition validation of any kind is performed.  The `error` and
`finished_at` arguments are accepted (the call sites pass them) but are
dropped by the `Job(**data)` reconstruction, see `applyJobUpdate`. -/
def Store.set_job_state (st : Store) (jid : Nat) (state : JobState)
    (progress : Option ℚ) (error : Option String) (started_at : Option Nat)
    (finished_at : Option Nat) (result_path : Option String) :
    Store × Option Job :=
  match st.get_job jid with
  | none => (st, none)
  | some job =>
    let job' := applyJobUpdate job state progress started_at result_path
    ({ st with jobs := st.jobs.map (fun j => if j.job_id == jid then job' else j) },
      some job')

/-! ## Scheduler (scheduler.py) -/

/-- scheduler.py `BranchKey = (user_id, workflow_id, branch_id)`. -/
abbrev BranchKey : Type := String × Nat × String

/-- One worker task of `Scheduler._worker_loop`, as the state machine of its
suspension points (see the header comment): `idle` = blocked in
`await self._ready_queue.get()`; `gateWait jid u` = blocked in the
`await asyncio.sleep(0.05)` of the active-user gate loop, holding the
popped job id and its user; `executing jid u wf i` = blocked in the i-th
`await asyncio.sleep(0.3)` of `_execute_job` (i runs from 1 to 10),
holding the job id, its user and its workflow id (all immutable fields of
the job object the loop captured). -/
inductive WPhase where
  | idle : WPhase
  | gateWait : Nat → String → WPhase
  | executing : Nat → String → Nat → Nat → WPhase
deriving DecidableEq

/-- Ghost record of one dispatch (`set_job_state(job_id, RUNNING,
started_at=...)` in `_worker_loop`): the job, its user, the state the job
record had at that instant, whether the job was at the head of its branch
queue at that instant, and the clock. -/
structure StartEv where
  jobId : Nat
  user : String
  priorState : JobState
  wasHead : Bool
  time : Nat
deriving DecidableEq

/-- The full scheduler state: the store, the global ready queue, the
per-branch FIFO queues, the active-user set, the per-user running counts,
the worker pool, the clock, and the ghost dispatch log. -/
structure SchedState where
  store : Store
  ready : List Nat
  branchQueues : List (BranchKey × List Nat)
  activeUsers : List String
  userRunningCounts : List (String × Nat)
  workers : List WPhase
  now : Nat
  startLog : List StartEv
deriving DecidableEq

/-- scheduler.py `Scheduler._update_workflow_progress`: recompute the
workflow status (factored out so it can be reasoned about on its own).
The code forms `states = {j.state for j in jobs}` (a set, modelled by
`dedup`) and picks the first matching rule: any RUNNING, else any FAILED,
else all in {SUCCEEDED, CANCELLED}, else PENDING. -/
def workflowStatusOf (jobs : List Job) : WorkflowStatus :=
  let states := (jobs.map Job.state).dedup
  if JobState.RUNNING ∈ states then WorkflowStatus.RUNNING
  else if JobState.FAILED ∈ states then WorkflowStatus.FAILED
  else if states.all (fun st => st == JobState.SUCCEEDED || st == JobState.CANCELLED)
    then WorkflowStatus.SUCCEEDED
  else WorkflowStatus.PENDING

/-- scheduler.py `Scheduler._update_workflow_progress`: returns without
change when the workflow is unknown; sets progress 0 / PENDING when the
workflow has no jobs; otherwise stores the mean progress and the status
of `workflowStatusOf`. -/
def update_workflow_progress (s : SchedState) (wid : Nat) : SchedState :=
  let jobs := s.store.list_jobs_for_workflow_id wid
  match s.store.get_workflow wid with
  | none => s
  | some wf =>
    if jobs.isEmpty then
      { s with store := s.store.update_workflow { wf with progress := 0, status := WorkflowStatus.PENDING } }
    else
      let prog := (jobs.map Job.progress).sum / (jobs.length : ℚ)
      { s with store := s.store.update_workflow { wf with progress := prog, status := workflowStatusOf jobs } }

/-- scheduler.py `Scheduler.enqueue_job`: create the PENDING job, append
it to its branch queue, push it on the ready queue when it is the only
entry of that queue, then recompute the workflow progress. -/
def enqueue_job (s : SchedState) (user_id : String) (p : JobCreate) :
    SchedState × Job :=
  let (st, job) := s.store.create_job user_id p s.now
  let key : BranchKey := (user_id, p.workflow_id, p.branch_id)
  let dq := (alookup s.branchQueues key).getD []
  let dq' := dq ++ [job.job_id]
  let ready' := if dq'.length = 1 then s.ready ++ [job.job_id] else s.ready
  let s₁ : SchedState :=
    { s with store := st, branchQueues := aset s.branchQueues key dq', ready := ready' }
  (update_workflow_progress s₁ job.workflow_id, job)

/-- scheduler.py `Scheduler.cancel_job`: `ValueError` when the job is
unknown or foreign-owned; a plain return of the unchanged job when its
state is not PENDING; otherwise mark CANCELLED (progress 0, a
`finished_at` argument that `set_job_state` drops), remove the id from its
branch queue, promote the next head when the cancelled job was the head,
drop the queue when it became empty, and recompute the workflow
progress. -/
def cancel_job (s : SchedState) (user_id : String) (jid : Nat) :
    Except String (SchedState × Job) :=
  match s.store.get_job jid with
  | none => Except.error "Job not found"
  | some job =>
    if job.user_id ≠ user_id then Except.error "Job not found"
    else if job.state ≠ JobState.PENDING then Except.ok (s, job)
    else
      match s.store.set_job_state jid JobState.CANCELLED (some 0) none none (some s.now) none with
      | (_, none) => Except.ok (s, job)  -- unreachable: get_job succeeded above
      | (st', some job') =>
        let key : BranchKey := (job'.user_id, job'.workflow_id, job'.branch_id)
        let dq := (alookup s.branchQueues key).getD []
        if jid ∈ dq then
          let wasHead := dq.head? == some jid
          let dq' := dq.erase jid
          let ready' := match dq' with
            | [] => s.ready
            | h :: _ => if wasHead then s.ready ++ [h] else s.ready
          let bq' := if dq'.isEmpty then aerase s.branchQueues key
            else aset s.branchQueues key dq'
          let s₁ : SchedState := { s with store := st', branchQueues := bq', ready := ready' }
          Except.ok (update_workflow_progress s₁ job'.workflow_id, job')
        else
          let s₁ : SchedState := { s with store := st' }
          Except.ok (update_workflow_progress s₁ job'.workflow_id, job')

/-- scheduler.py `Scheduler._on_job_complete`: look up the branch queue of
the finished job (early return when it is missing or empty, skipping even
the progress update), pop the head when it is this job, then either
promote the new head onto the ready queue or drop the emptied key, and
recompute the workflow progress. -/
def on_job_complete (s : SchedState) (job : Job) : SchedState :=
  let key : BranchKey := (job.user_id, job.workflow_id, job.branch_id)
  match (alookup s.branchQueues key).getD [] with
  | [] => s
  | h :: t =>
    let dq' := if h = job.job_id then t else h :: t
    match dq' with
    | [] => update_workflow_progress
        { s with branchQueues := aerase s.branchQueues key } job.workflow_id
    | h' :: _ => update_workflow_progress
        { s with
          branchQueues := aset s.branchQueues key dq',
          ready := s.ready ++ [h'] } job.workflow_id

/-- The active-user gate of `_worker_loop`: the user is already active, or
a fairness slot is free. -/
def gateOpen (cfg : Settings) (s : SchedState) (u : String) : Prop :=
  u ∈ s.activeUsers ∨ s.activeUsers.length < cfg.MAX_ACTIVE_USERS

instance (cfg : Settings) (s : SchedState) (u : String) :
    Decidable (gateOpen cfg s u) :=
  inferInstanceAs (Decidable (_ ∨ _))

/-- `nth l n` is `l[n]` as an option (worker pool indexing). -/
def nth {α : Type} : List α → Nat → Option α
  | [], _ => none
  | a :: _, 0 => some a
  | _ :: t, n + 1 => nth t n

/-- `setNth l n b` replaces `l[n]` by `b` (no-op out of range). -/
def setNth {α : Type} : List α → Nat → α → List α
  | [], _, _ => []
  | _ :: t, 0, b => b :: t
  | a :: t, n + 1, b => a :: setNth t n b

/-- The dispatch block of `_worker_loop` once the gate has opened for
worker `w` holding job `jid` whose current record is `job`: add the user
to the active set, bump its running count, set the job RUNNING with
`started_at = now`, and enter `_execute_job` up to its first sleep.
The ghost `StartEv` snapshots the prior state of the record and whether
it heads its branch queue. -/
def dispatch (s : SchedState) (w : Nat) (jid : Nat) (job : Job) : SchedState :=
  let u := job.user_id
  let active' := if u ∈ s.activeUsers then s.activeUsers else u :: s.activeUsers
  let counts' := aset s.userRunningCounts u ((alookup s.userRunningCounts u).getD 0 + 1)
  let (st', _) := s.store.set_job_state jid JobState.RUNNING none none (some s.now) none none
  let key : BranchKey := (job.user_id, job.workflow_id, job.branch_id)
  let ev : StartEv :=
    ⟨jid, u, job.state, ((alookup s.branchQueues key).getD []).head? == some jid, s.now⟩
  { s with
    store := st',
    activeUsers := active',
    userRunningCounts := counts',
    workers := setNth s.workers w (WPhase.executing jid u job.workflow_id 1),
    startLog := s.startLog ++ [ev] }

/-- The transitions of the system: the two HTTP-driven operations
(`enqueue`, `cancel`, plus workflow creation), the three worker blocks
(`fetch`, `retry`, `run`, see `WPhase`), and the clock `tick`. -/
inductive Step where
  | createWorkflow : String → String → Step
  | enqueue : String → JobCreate → Step
  | cancel : String → Nat → Step
  | fetch : Nat → Step
  | retry : Nat → Step
  | run : Nat → Step
  | tick : Step
deriving DecidableEq

/-- One atomic block of the event loop.  `none` means the transition is
not enabled (wrong worker phase, empty ready queue). -/
def stepFn (cfg : Settings) : Step → SchedState → Option SchedState
  | Step.createWorkflow u name, s =>
    some { s with store := (s.store.create_workflow u ⟨name⟩ s.now).1 }
  | Step.enqueue u p, s => some (enqueue_job s u p).1
  | Step.cancel u jid, s =>
    match cancel_job s u jid with
    | Except.ok (s', _) => some s'
    | Except.error _ => some s
  | Step.fetch w, s =>
    match nth s.workers w with
    | some WPhase.idle =>
      match s.ready with
      | [] => none
      | jid :: rest =>
        let s₁ : SchedState := { s with ready := rest }
        match s₁.store.get_job jid with
        | none => some s₁
        | some job =>
          if job.state ≠ JobState.PENDING then some s₁
          else if gateOpen cfg s₁ job.user_id then some (dispatch s₁ w jid job)
          else some { s₁ with workers := setNth s₁.workers w (WPhase.gateWait jid job.user_id) }
    | _ => none
  | Step.retry w, s =>
    match nth s.workers w with
    | some (WPhase.gateWait jid u) =>
      if gateOpen cfg s u then
        -- the code re-checks only the gate here, not the job state
        match s.store.get_job jid with
        | some job => some (dispatch s w jid job)
        | none => some s  -- unreachable: jobs are never deleted
      else some s
    | _ => none
  | Step.run w, s =>
    match nth s.workers w with
    | some (WPhase.executing jid u wfid i) =>
      if i < 10 then
        -- one progress iteration of _execute_job
        let st' := (s.store.set_job_state jid JobState.RUNNING (some ((i : ℚ) / 10)) none none none none).1
        let s₁ := update_workflow_progress { s with store := st' } wfid
        some { s₁ with workers := setNth s₁.workers w (WPhase.executing jid u wfid (i + 1)) }
      else
        -- final iteration of _execute_job, then the success and cleanup
        -- blocks of _worker_loop (no suspension point separates them)
        let st₁ := (s.store.set_job_state jid JobState.RUNNING (some 1) none none none none).1
        let s₁ := update_workflow_progress { s with store := st₁ } wfid
        let s₂ := match s₁.store.get_job jid with
          | some latest =>
            if latest.state = JobState.RUNNING then
              { s₁ with store :=
                  (s₁.store.set_job_state jid JobState.SUCCEEDED (some 1) none none (some s₁.now) none).1 }
            else s₁
          | none => s₁
        let s₃ := match s₂.store.get_job jid with
          | some jobEnd => on_job_complete s₂ jobEnd
          | none => s₂
        let c := (alookup s₃.userRunningCounts u).getD 0
        let s₄ : SchedState := if c ≤ 1 then
            -- counts[u] -= 1 reaches 0: pop the key and discard the user
            -- (a missing key would raise in Python; it is unreachable, see
            -- `Inv.countEq`)
            { s₃ with
              userRunningCounts := aerase s₃.userRunningCounts u,
              activeUsers := s₃.activeUsers.erase u }
          else { s₃ with userRunningCounts := aset s₃.userRunningCounts u (c - 1) }
        some { s₄ with workers := setNth s₄.workers w WPhase.idle }
    | _ => none
  | Step.tick, s => some { s with now := s.now + 1 }

/-- The state right after `Scheduler.start()`: empty store and queues,
`MAX_WORKERS` idle worker tasks. -/
def initState (cfg : Settings) : SchedState :=
  ⟨Store.empty, [], [], [], [], List.replicate cfg.MAX_WORKERS WPhase.idle, 0, []⟩

/-- Reachability under the transition system. -/
inductive Reachable (cfg : Settings) : SchedState → Prop where
  | init : Reachable cfg (initState cfg)
  | next : ∀ {s σ s'}, Reachable cfg s → stepFn cfg σ s = some s' → Reachable cfg s'

/-- Run a list of transitions, failing when one is not enabled. -/
def runSteps (cfg : Settings) : List Step → SchedState → Option SchedState
  | [], s => some s
  | σ :: l, s =>
    match stepFn cfg σ s with
    | none => none
    | some s' => runSteps cfg l s'

/-! ## Concrete schedules used as test vectors -/

/-- A fixed job payload (only the workflow and branch vary in the
schedules below). -/
def payload (wf : Nat) (br : String) : JobCreate :=
  ⟨wf, br, JobType.CELL_SEGMENTATION, "img", []⟩

/-- User u1 enqueues two jobs on two branches; worker 0 runs the first to
completion while the second is still PENDING. -/
def c4Trace : List Step :=
  [Step.enqueue "u1" (payload 0 "a"), Step.enqueue "u1" (payload 0 "b"),
   Step.fetch 0] ++ List.replicate 10 (Step.run 0)

def c4Pre : SchedState :=
  (runSteps settings (c4Trace.take 12) (initState settings)).getD (initState settings)

def c4Final : SchedState :=
  (runSteps settings c4Trace (initState settings)).getD (initState settings)

/-- Users a, b, c occupy the three active-user slots; worker 3 pops the
job of user d and parks at the gate; the job is cancelled while the worker
sleeps there; user a drains, and the woken worker 3 dispatches the
cancelled job without re-checking its state. -/
def c2Trace : List Step :=
  [Step.enqueue "a" (payload 0 "x"), Step.enqueue "b" (payload 0 "x"),
   Step.enqueue "c" (payload 0 "x"), Step.enqueue "d" (payload 0 "x"),
   Step.fetch 0, Step.fetch 1, Step.fetch 2, Step.fetch 3,
   Step.cancel "d" 3] ++ List.replicate 10 (Step.run 0) ++ [Step.retry 3]

def c2Final : SchedState :=
  (runSteps settings c2Trace (initState settings)).getD (initState settings)

/-- One user enqueues 21 jobs on one branch; worker 0 runs them back to
back with no clock tick, so all 21 dispatches carry the same timestamp. -/
def c5Trace : List Step :=
  List.replicate 21 (Step.enqueue "u" (payload 0 "b")) ++
  (List.replicate 21 (Step.fetch 0 :: List.replicate 10 (Step.run 0))).flatten

def c5Final : SchedState :=
  (runSteps settings c5Trace (initState settings)).getD (initState settings)

/-- One enqueued job, dispatched by worker 0 and still running. -/
def w1Trace : List Step :=
  [Step.enqueue "u" (payload 0 "b"), Step.fetch 0]

def w1State : SchedState :=
  (runSteps settings w1Trace (initState settings)).getD (initState settings)

/-- A placeholder job record (only used as the default of `Option.getD`). -/
def defaultJob : Job :=
  ⟨0, 0, "", "", JobType.CELL_SEGMENTATION, "", [], JobState.PENDING, 0, 0,
    none, none, none, none⟩

/-- The single (RUNNING) job of `w1State`. -/
def w1Job : Job := (w1State.store.get_job 0).getD defaultJob

/-- A store holding one SUCCEEDED job, for exercising `set_job_state`. -/
def c6Job : Job :=
  ⟨0, 0, "alice", "main", JobType.CELL_SEGMENTATION, "img", [],
    JobState.SUCCEEDED, 1, 0, some 0, none, none, none⟩

def c6Store : Store := ⟨[], [c6Job], [(0, [0])], 1⟩

/-- A job payload naming a workflow id that exists in no store. -/
def c7Payload : JobCreate := ⟨99, "main", JobType.CELL_SEGMENTATION, "img", []⟩

/-- A store whose only workflow is owned by user bob. -/
def c7StoreB : Store := (Store.empty.create_workflow "bob" ⟨"wf"⟩ 0).1

/-- A RUNNING job and a FAILED job sharing one workflow. -/
def c8JobR : Job :=
  ⟨0, 0, "u", "b", JobType.CELL_SEGMENTATION, "i", [], JobState.RUNNING, 0, 0,
    none, none, none, none⟩

def c8JobF : Job := { c8JobR with job_id := 1, state := JobState.FAILED }

/-! ## Observers and the inductive invariant -/

/-- The job a worker is currently executing, with its user. -/
def phaseJobUser : WPhase → Option (Nat × String)
  | WPhase.executing j u _ _ => some (j, u)
  | _ => none

/-- The job a worker holds (parked at the gate or executing), with its
user. -/
def phaseRef : WPhase → Option (Nat × String)
  | WPhase.idle => none
  | WPhase.gateWait j u => some (j, u)
  | WPhase.executing j u _ _ => some (j, u)

/-- Whether a worker is executing a job of user `u`. -/
def isExecUser (u : String) : WPhase → Bool
  | WPhase.executing _ u' _ _ => u' == u
  | _ => false

/-- The RUNNING jobs of the store. -/
def runningJobs (s : SchedState) : List Job :=
  s.store.jobs.filter (fun j => j.state == JobState.RUNNING)

/-- The distinct users owning at least one RUNNING job. -/
def runningUsers (s : SchedState) : List String :=
  ((runningJobs s).map Job.user_id).dedup

/-- The inductive invariant of the scheduler: the worker pool has its
configured size; the active-user set is duplicate-free and within the cap;
the per-user running counts agree with the number of workers executing a
job of that user; a user is active exactly when that count is positive;
every RUNNING job is held by some executing worker; every job a worker
holds exists in the store under that user; job ids are unique, below the
freshness counter, and `completed_at` / `error_message` are never
populated. -/
structure Inv (cfg : Settings) (s : SchedState) : Prop where
  workersLen : s.workers.length = cfg.MAX_WORKERS
  activeNodup : s.activeUsers.Nodup
  activeLen : s.activeUsers.length ≤ cfg.MAX_ACTIVE_USERS
  countEq : ∀ u, (alookup s.userRunningCounts u).getD 0 = s.workers.countP (isExecUser u)
  activeIff : ∀ u, u ∈ s.activeUsers ↔ 1 ≤ (alookup s.userRunningCounts u).getD 0
  runningW : ∀ j ∈ s.store.jobs, j.state = JobState.RUNNING →
    ∃ ph ∈ s.workers, phaseJobUser ph = some (j.job_id, j.user_id)
  phaseJobOk : ∀ ph ∈ s.workers, ∀ jid u, phaseRef ph = some (jid, u) →
    ∃ job ∈ s.store.jobs, job.job_id = jid ∧ job.user_id = u
  idsNodup : (s.store.jobs.map Job.job_id).Nodup
  idsLt : ∀ j ∈ s.store.jobs, j.job_id < s.store.nextId
  fieldsNone : ∀ j ∈ s.store.jobs, j.completed_at = none ∧ j.error_message = none
  countsNodup : (s.userRunningCounts.map Prod.fst).Nodup

/-! ## Lemmas: dictionary and list primitives -/

theorem reachable_runSteps {cfg : Settings} {l : List Step} {s s' : SchedState}
    (h : Reachable cfg s) (hr : runSteps cfg l s = some s') : Reachable cfg s' := by
  induction l generalizing s with
  | nil => cases hr; exact h
  | cons σ t ih =>
    unfold runSteps at hr
    cases hs : stepFn cfg σ s with
    | none => rw [hs] at hr; cases hr
    | some s₁ => rw [hs] at hr; exact ih (Reachable.next h hs) hr

theorem reachable_of_trace (cfg : Settings) (l : List Step) {s' : SchedState}
    (hr : runSteps cfg l (initState cfg) = some s') : Reachable cfg s' :=
  reachable_runSteps Reachable.init hr

theorem alookup_aset_eq {α β : Type} [DecidableEq α] (l : List (α × β)) (k : α) (v : β) :
    alookup (aset l k v) k = some v := by
  induction l with
  | nil => simp [aset, alookup]
  | cons p t ih =>
    obtain ⟨k₁, v₁⟩ := p
    by_cases h : k₁ = k <;> simp [aset, alookup, h, ih]

theorem alookup_aset_ne {α β : Type} [DecidableEq α] (l : List (α × β)) (k k' : α) (v : β)
    (h : k' ≠ k) : alookup (aset l k v) k' = alookup l k' := by
  have h' : ¬(k = k') := fun hh => h hh.symm
  induction l with
  | nil => simp [aset, alookup, h']
  | cons p t ih =>
    obtain ⟨k₁, v₁⟩ := p
    by_cases h₁ : k₁ = k
    · subst h₁
      simp [aset, alookup, h']
    · simp only [aset, if_neg h₁, alookup]
      by_cases h₂ : k₁ = k' <;> simp [h₂, ih]

theorem alookup_eq_none_of_not_mem {α β : Type} [DecidableEq α] {l : List (α × β)} {k : α}
    (h : k ∉ l.map Prod.fst) : alookup l k = none := by
  induction l with
  | nil => rfl
  | cons p t ih =>
    obtain ⟨k₁, v₁⟩ := p
    simp only [List.map_cons, List.mem_cons] at h
    push_neg at h
    have hne : ¬(k₁ = k) := fun hh => h.1 hh.symm
    simp only [alookup, if_neg hne]
    exact ih h.2

theorem alookup_aerase_eq {α β : Type} [DecidableEq α] (l : List (α × β)) (k : α)
    (hnd : (l.map Prod.fst).Nodup) : alookup (aerase l k) k = none := by
  induction l with
  | nil => rfl
  | cons p t ih =>
    obtain ⟨k₁, v₁⟩ := p
    simp only [List.map_cons, List.nodup_cons] at hnd
    by_cases h : k₁ = k
    · subst h
      simp only [aerase, if_pos rfl]
      exact alookup_eq_none_of_not_mem hnd.1
    · simp only [aerase, if_neg h, alookup, if_neg h]
      exact ih hnd.2

theorem alookup_aerase_ne {α β : Type} [DecidableEq α] (l : List (α × β)) (k k' : α)
    (h : k' ≠ k) : alookup (aerase l k) k' = alookup l k' := by
  induction l with
  | nil => rfl
  | cons p t ih =>
    obtain ⟨k₁, v₁⟩ := p
    by_cases h₁ : k₁ = k
    · subst h₁
      have h' : ¬(k₁ = k') := fun hh => h hh.symm
      simp [aerase, alookup, h']
    · simp only [aerase, if_neg h₁, alookup]
      by_cases h₂ : k₁ = k' <;> simp [h₂, ih]

theorem aset_cons_eq {α β : Type} [DecidableEq α] (k : α) (v v₁ : β) (t : List (α × β)) :
    aset ((k, v₁) :: t) k v = (k, v) :: t := by
  simp [aset]

theorem aset_cons_ne {α β : Type} [DecidableEq α] {k₁ k : α} (h : k₁ ≠ k)
    (v v₁ : β) (t : List (α × β)) :
    aset ((k₁, v₁) :: t) k v = (k₁, v₁) :: aset t k v := by
  simp [aset, h]

theorem aerase_cons_eq {α β : Type} [DecidableEq α] (k : α) (v₁ : β) (t : List (α × β)) :
    aerase ((k, v₁) :: t) k = t := by
  simp [aerase]

theorem aerase_cons_ne {α β : Type} [DecidableEq α] {k₁ k : α} (h : k₁ ≠ k)
    (v₁ : β) (t : List (α × β)) :
    aerase ((k₁, v₁) :: t) k = (k₁, v₁) :: aerase t k := by
  simp [aerase, h]

theorem mem_fst_aset {α β : Type} [DecidableEq α] {l : List (α × β)} {k x : α} {v : β}
    (h : x ∈ (aset l k v).map Prod.fst) : x = k ∨ x ∈ l.map Prod.fst := by
  induction l with
  | nil => simpa [aset] using h
  | cons p t ih =>
    obtain ⟨k₁, v₁⟩ := p
    by_cases hk : k₁ = k
    · subst hk
      rw [aset_cons_eq] at h
      simp only [List.map_cons, List.mem_cons] at h ⊢
      tauto
    · rw [aset_cons_ne hk] at h
      simp only [List.map_cons, List.mem_cons] at h ⊢
      rcases h with h | h
      · tauto
      · rcases ih h with h | h <;> tauto

theorem aset_fst_nodup {α β : Type} [DecidableEq α] {l : List (α × β)} (k : α) (v : β)
    (h : (l.map Prod.fst).Nodup) : ((aset l k v).map Prod.fst).Nodup := by
  induction l with
  | nil => simp [aset]
  | cons p t ih =>
    obtain ⟨k₁, v₁⟩ := p
    simp only [List.map_cons, List.nodup_cons] at h
    by_cases hk : k₁ = k
    · subst hk
      rw [aset_cons_eq]
      simp only [List.map_cons, List.nodup_cons]
      exact ⟨h.1, h.2⟩
    · rw [aset_cons_ne hk]
      simp only [List.map_cons, List.nodup_cons]
      refine ⟨?_, ih h.2⟩
      intro hmem
      rcases mem_fst_aset hmem with hh | hh
      · exact hk hh
      · exact h.1 hh

theorem mem_fst_aerase {α β : Type} [DecidableEq α] {l : List (α × β)} {k x : α}
    (h : x ∈ (aerase l k).map Prod.fst) : x ∈ l.map Prod.fst := by
  induction l with
  | nil => simpa [aerase] using h
  | cons p t ih =>
    obtain ⟨k₁, v₁⟩ := p
    by_cases hk : k₁ = k
    · subst hk
      rw [aerase_cons_eq] at h
      simp only [List.map_cons, List.mem_cons]
      exact Or.inr h
    · rw [aerase_cons_ne hk] at h
      simp only [List.map_cons, List.mem_cons] at h ⊢
      rcases h with h | h
      · exact Or.inl h
      · exact Or.inr (ih h)

theorem aerase_fst_nodup {α β : Type} [DecidableEq α] {l : List (α × β)} (k : α)
    (h : (l.map Prod.fst).Nodup) : ((aerase l k).map Prod.fst).Nodup := by
  induction l with
  | nil => simp [aerase]
  | cons p t ih =>
    obtain ⟨k₁, v₁⟩ := p
    simp only [List.map_cons, List.nodup_cons] at h
    by_cases hk : k₁ = k
    · subst hk
      rw [aerase_cons_eq]
      exact h.2
    · rw [aerase_cons_ne hk]
      simp only [List.map_cons, List.nodup_cons]
      exact ⟨fun hmem => h.1 (mem_fst_aerase hmem), ih h.2⟩

theorem length_setNth {α : Type} (l : List α) (n : Nat) (b : α) :
    (setNth l n b).length = l.length := by
  induction l generalizing n with
  | nil => rfl
  | cons a t ih => cases n <;> simp [setNth, ih]

theorem mem_of_nth {α : Type} {l : List α} {n : Nat} {a : α}
    (h : nth l n = some a) : a ∈ l := by
  induction l generalizing n with
  | nil => cases h
  | cons x t ih =>
    cases n with
    | zero => cases h; exact List.mem_cons_self _ _
    | succ m => exact List.mem_cons_of_mem _ (ih h)

theorem mem_setNth_self {α : Type} {l : List α} {n : Nat} {a : α} (b : α)
    (h : nth l n = some a) : b ∈ setNth l n b := by
  induction l generalizing n with
  | nil => cases h
  | cons x t ih =>
    cases n with
    | zero => exact List.mem_cons_self _ _
    | succ m => exact List.mem_cons_of_mem _ (ih h)

theorem mem_setNth_of_ne {α : Type} {l : List α} {n : Nat} {a x : α} (b : α)
    (h : nth l n = some a) (hx : x ∈ l) (hne : x ≠ a) : x ∈ setNth l n b := by
  induction l generalizing n with
  | nil => cases h
  | cons y t ih =>
    cases n with
    | zero =>
      cases h
      rcases List.mem_cons.1 hx with h₁ | h₁
      · exact absurd h₁ hne
      · exact List.mem_cons_of_mem _ h₁
    | succ m =>
      rcases List.mem_cons.1 hx with h₁ | h₁
      · exact h₁ ▸ List.mem_cons_self _ _
      · exact List.mem_cons_of_mem _ (ih h h₁)

theorem mem_setNth_cases {α : Type} {l : List α} {n : Nat} {b x : α}
    (hx : x ∈ setNth l n b) : x = b ∨ x ∈ l := by
  induction l generalizing n with
  | nil => cases hx
  | cons y t ih =>
    cases n with
    | zero =>
      rcases List.mem_cons.1 hx with h₁ | h₁
      · exact Or.inl h₁
      · exact Or.inr (List.mem_cons_of_mem _ h₁)
    | succ m =>
      rcases List.mem_cons.1 hx with h₁ | h₁
      · exact Or.inr (h₁ ▸ List.mem_cons_self _ _)
      · rcases ih h₁ with h₂ | h₂
        · exact Or.inl h₂
        · exact Or.inr (List.mem_cons_of_mem _ h₂)

theorem countP_setNth {α : Type} {l : List α} {n : Nat} {a : α} (b : α) (p : α → Bool)
    (h : nth l n = some a) :
    (setNth l n b).countP p + (if p a then 1 else 0)
      = l.countP p + (if p b then 1 else 0) := by
  induction l generalizing n with
  | nil => cases h
  | cons x t ih =>
    cases n with
    | zero =>
      cases h
      simp only [setNth, List.countP_cons]
      omega
    | succ m =>
      simp only [setNth, List.countP_cons]
      have := ih h
      omega

theorem countP_pos_of_mem {α : Type} {l : List α} {a : α} {p : α → Bool}
    (hm : a ∈ l) (hp : p a = true) : 1 ≤ l.countP p := by
  induction l with
  | nil => cases hm
  | cons x t ih =>
    rcases List.mem_cons.1 hm with h₁ | h₁
    · subst h₁; simp [List.countP_cons, hp]
    · have := ih h₁
      simp only [List.countP_cons]
      omega

/-! ## Lemmas: store operations -/

theorem applyJobUpdate_job_id (j : Job) (ns : JobState) (p : Option ℚ)
    (sa : Option Nat) (rp : Option String) :
    (applyJobUpdate j ns p sa rp).job_id = j.job_id := rfl

theorem applyJobUpdate_user_id (j : Job) (ns : JobState) (p : Option ℚ)
    (sa : Option Nat) (rp : Option String) :
    (applyJobUpdate j ns p sa rp).user_id = j.user_id := rfl

theorem applyJobUpdate_workflow_id (j : Job) (ns : JobState) (p : Option ℚ)
    (sa : Option Nat) (rp : Option String) :
    (applyJobUpdate j ns p sa rp).workflow_id = j.workflow_id := rfl

theorem applyJobUpdate_branch_id (j : Job) (ns : JobState) (p : Option ℚ)
    (sa : Option Nat) (rp : Option String) :
    (applyJobUpdate j ns p sa rp).branch_id = j.branch_id := rfl

theorem applyJobUpdate_completed_at (j : Job) (ns : JobState) (p : Option ℚ)
    (sa : Option Nat) (rp : Option String) :
    (applyJobUpdate j ns p sa rp).completed_at = j.completed_at := rfl

theorem applyJobUpdate_error_message (j : Job) (ns : JobState) (p : Option ℚ)
    (sa : Option Nat) (rp : Option String) :
    (applyJobUpdate j ns p sa rp).error_message = j.error_message := rfl

theorem applyJobUpdate_state (j : Job) (ns : JobState) (p : Option ℚ)
    (sa : Option Nat) (rp : Option String) :
    (applyJobUpdate j ns p sa rp).state = ns := rfl

/-- The per-record form of the update performed by `set_job_state`. -/
def jobsUpd (jid : Nat) (ns : JobState) (p : Option ℚ) (sa : Option Nat)
    (rp : Option String) : Job → Job :=
  fun j => if j.job_id == jid then applyJobUpdate j ns p sa rp else j

theorem jobsUpd_job_id (jid : Nat) (ns : JobState) (p : Option ℚ) (sa : Option Nat)
    (rp : Option String) (j : Job) : (jobsUpd jid ns p sa rp j).job_id = j.job_id := by
  unfold jobsUpd
  by_cases h : (j.job_id == jid) = true <;> simp [h, applyJobUpdate_job_id]

theorem jobsUpd_user_id (jid : Nat) (ns : JobState) (p : Option ℚ) (sa : Option Nat)
    (rp : Option String) (j : Job) : (jobsUpd jid ns p sa rp j).user_id = j.user_id := by
  unfold jobsUpd
  by_cases h : (j.job_id == jid) = true <;> simp [h, applyJobUpdate_user_id]

theorem jobsUpd_completed_at (jid : Nat) (ns : JobState) (p : Option ℚ) (sa : Option Nat)
    (rp : Option String) (j : Job) :
    (jobsUpd jid ns p sa rp j).completed_at = j.completed_at := by
  unfold jobsUpd
  by_cases h : (j.job_id == jid) = true <;> simp [h, applyJobUpdate_completed_at]

theorem jobsUpd_error_message (jid : Nat) (ns : JobState) (p : Option ℚ) (sa : Option Nat)
    (rp : Option String) (j : Job) :
    (jobsUpd jid ns p sa rp j).error_message = j.error_message := by
  unfold jobsUpd
  by_cases h : (j.job_id == jid) = true <;> simp [h, applyJobUpdate_error_message]

theorem find?_map_pres {α : Type} (l : List α) (f : α → α) (p : α → Bool)
    (hf : ∀ a, p (f a) = p a) : (l.map f).find? p = (l.find? p).map f := by
  induction l with
  | nil => rfl
  | cons a t ih =>
    simp only [List.map_cons]
    cases hp : p a
    · rw [List.find?_cons_of_neg _ (by simp [hf, hp]), List.find?_cons_of_neg _ (by simp [hp])]
      exact ih
    · rw [List.find?_cons_of_pos _ (by simp [hf, hp]), List.find?_cons_of_pos _ (by simp [hp])]
      rfl

theorem get_job_mem {st : Store} {jid : Nat} {job : Job}
    (h : st.get_job jid = some job) : job ∈ st.jobs ∧ job.job_id = jid := by
  refine ⟨List.mem_of_find?_eq_some h, ?_⟩
  have := List.find?_some h
  simpa using this

theorem find?_id_eq_some {l : List Job} {job : Job}
    (hnd : (l.map Job.job_id).Nodup) (hm : job ∈ l) :
    l.find? (fun j => j.job_id == job.job_id) = some job := by
  induction l with
  | nil => cases hm
  | cons a t ih =>
    simp only [List.map_cons, List.nodup_cons] at hnd
    rcases List.mem_cons.1 hm with h | h
    · subst h
      rw [List.find?_cons_of_pos _ (by simp)]
    · have hne : ¬((fun j => j.job_id == job.job_id) a = true) := by
        simp only [beq_iff_eq]
        intro he
        exact hnd.1 (he ▸ List.mem_map_of_mem Job.job_id h)
      have hrw := @List.find?_cons_of_neg _ (fun j => j.job_id == job.job_id) a t hne
      rw [hrw]
      exact ih hnd.2 h

theorem get_job_eq_some_of_mem {st : Store} {job : Job}
    (hnd : (st.jobs.map Job.job_id).Nodup) (hm : job ∈ st.jobs) :
    st.get_job job.job_id = some job :=
  find?_id_eq_some hnd hm

theorem jobs_eq_of_same_id {l : List Job} {j₁ j₂ : Job}
    (hnd : (l.map Job.job_id).Nodup) (h1 : j₁ ∈ l) (h2 : j₂ ∈ l)
    (hid : j₁.job_id = j₂.job_id) : j₁ = j₂ := by
  have e1 := find?_id_eq_some hnd h1
  have e2 := find?_id_eq_some hnd h2
  rw [hid] at e1
  rw [e1] at e2
  exact (Option.some.inj e2)

/-- Under unique job ids, `set_job_state` on a present job is the uniform
per-record update `jobsUpd` plus the updated record. -/
theorem set_job_state_eq {st : Store} {jid : Nat} {job : Job}
    (ns : JobState) (p : Option ℚ) (e : Option String) (sa fa : Option Nat)
    (rp : Option String)
    (hnd : (st.jobs.map Job.job_id).Nodup) (hj : st.get_job jid = some job) :
    st.set_job_state jid ns p e sa fa rp =
      ({ st with jobs := st.jobs.map (jobsUpd jid ns p sa rp) },
        some (applyJobUpdate job ns p sa rp)) := by
  have hmem := (get_job_mem hj).1
  have hid := (get_job_mem hj).2
  have hcongr : st.jobs.map (fun j => if j.job_id == jid then applyJobUpdate job ns p sa rp else j)
      = st.jobs.map (jobsUpd jid ns p sa rp) := by
    apply List.map_congr_left
    intro a ha
    unfold jobsUpd
    by_cases hc : (a.job_id == jid) = true
    · have heq : a = job := jobs_eq_of_same_id hnd ha hmem (by
        rw [beq_iff_eq] at hc
        rw [hc, hid])
      subst heq
      simp [hc]
    · simp [hc]
  have hstep : st.set_job_state jid ns p e sa fa rp =
      ({ st with jobs := st.jobs.map (fun j => if j.job_id == jid then applyJobUpdate job ns p sa rp else j) },
        some (applyJobUpdate job ns p sa rp)) := by
    unfold Store.set_job_state
    rw [hj]
  rw [hstep, hcongr]

theorem set_job_state_none {st : Store} {jid : Nat}
    (ns : JobState) (p : Option ℚ) (e : Option String) (sa fa : Option Nat)
    (rp : Option String) (hj : st.get_job jid = none) :
    st.set_job_state jid ns p e sa fa rp = (st, none) := by
  unfold Store.set_job_state
  rw [hj]

theorem map_jobsUpd_ids (l : List Job) (jid : Nat) (ns : JobState) (p : Option ℚ)
    (sa : Option Nat) (rp : Option String) :
    (l.map (jobsUpd jid ns p sa rp)).map Job.job_id = l.map Job.job_id := by
  induction l with
  | nil => rfl
  | cons a t ih => simp [ih, jobsUpd_job_id]

theorem get_job_map_jobsUpd (st : Store) (jid k : Nat) (ns : JobState) (p : Option ℚ)
    (sa : Option Nat) (rp : Option String) :
    (Store.get_job { st with jobs := st.jobs.map (jobsUpd jid ns p sa rp) } k)
      = (st.get_job k).map (jobsUpd jid ns p sa rp) := by
  unfold Store.get_job
  exact find?_map_pres st.jobs _ _ (fun a => by rw [jobsUpd_job_id])

/-! ## Lemmas: shapes of the composite scheduler operations -/

theorem update_workflow_shape (st : Store) (wf : Workflow) :
    ∃ ws, st.update_workflow wf = { st with workflows := ws } := by
  unfold Store.update_workflow
  split
  · exact ⟨_, rfl⟩
  · exact ⟨_, rfl⟩

/-- `_update_workflow_progress` only rewrites `store.workflows`. -/
theorem uwp_shape (s : SchedState) (wid : Nat) :
    ∃ ws, update_workflow_progress s wid
      = { s with store := { s.store with workflows := ws } } := by
  unfold update_workflow_progress
  cases hwf : s.store.get_workflow wid with
  | none => exact ⟨s.store.workflows, rfl⟩
  | some wf =>
    dsimp only
    split
    · obtain ⟨ws, hws⟩ := update_workflow_shape s.store
        { wf with progress := 0, status := WorkflowStatus.PENDING }
      exact ⟨ws, by rw [hws]⟩
    · obtain ⟨ws, hws⟩ := update_workflow_shape s.store
        { wf with
          progress := ((s.store.list_jobs_for_workflow_id wid).map Job.progress).sum
            / ((s.store.list_jobs_for_workflow_id wid).length : ℚ),
          status := workflowStatusOf (s.store.list_jobs_for_workflow_id wid) }
      exact ⟨ws, by rw [hws]⟩

theorem uwp_workers (s : SchedState) (wid : Nat) :
    (update_workflow_progress s wid).workers = s.workers := by
  obtain ⟨ws, hws⟩ := uwp_shape s wid; rw [hws]

theorem uwp_activeUsers (s : SchedState) (wid : Nat) :
    (update_workflow_progress s wid).activeUsers = s.activeUsers := by
  obtain ⟨ws, hws⟩ := uwp_shape s wid; rw [hws]

theorem uwp_userRunningCounts (s : SchedState) (wid : Nat) :
    (update_workflow_progress s wid).userRunningCounts = s.userRunningCounts := by
  obtain ⟨ws, hws⟩ := uwp_shape s wid; rw [hws]

theorem uwp_jobs (s : SchedState) (wid : Nat) :
    (update_workflow_progress s wid).store.jobs = s.store.jobs := by
  obtain ⟨ws, hws⟩ := uwp_shape s wid; rw [hws]

theorem uwp_nextId (s : SchedState) (wid : Nat) :
    (update_workflow_progress s wid).store.nextId = s.store.nextId := by
  obtain ⟨ws, hws⟩ := uwp_shape s wid; rw [hws]

theorem uwp_now (s : SchedState) (wid : Nat) :
    (update_workflow_progress s wid).now = s.now := by
  obtain ⟨ws, hws⟩ := uwp_shape s wid; rw [hws]

theorem uwp_startLog (s : SchedState) (wid : Nat) :
    (update_workflow_progress s wid).startLog = s.startLog := by
  obtain ⟨ws, hws⟩ := uwp_shape s wid; rw [hws]

theorem inv_uwp {cfg : Settings} {s : SchedState} (h : Inv cfg s) (wid : Nat) :
    Inv cfg (update_workflow_progress s wid) := by
  obtain ⟨ws, hws⟩ := uwp_shape s wid
  rw [hws]
  exact { h with
    runningW := h.runningW,
    phaseJobOk := h.phaseJobOk }

/-- `_on_job_complete` only rewrites the branch queues, the ready queue
and `store.workflows`. -/
theorem ojc_shape (s : SchedState) (job : Job) :
    ∃ bq rq ws, on_job_complete s job =
      { s with
        branchQueues := bq,
        ready := rq,
        store := { s.store with workflows := ws } } := by
  unfold on_job_complete
  dsimp only
  cases hdq : (alookup s.branchQueues (job.user_id, job.workflow_id, job.branch_id)).getD [] with
  | nil => exact ⟨s.branchQueues, s.ready, s.store.workflows, rfl⟩
  | cons hd t =>
    by_cases hh : hd = job.job_id
    · simp only [if_pos hh]
      cases t with
      | nil =>
        obtain ⟨ws, hws⟩ := uwp_shape
          { s with branchQueues :=
              aerase s.branchQueues (job.user_id, job.workflow_id, job.branch_id) }
          job.workflow_id
        exact ⟨_, _, ws, hws⟩
      | cons h' t' =>
        obtain ⟨ws, hws⟩ := uwp_shape
          { s with
            branchQueues :=
              aset s.branchQueues (job.user_id, job.workflow_id, job.branch_id) (h' :: t'),
            ready := s.ready ++ [h'] }
          job.workflow_id
        exact ⟨_, _, ws, hws⟩
    · simp only [if_neg hh]
      obtain ⟨ws, hws⟩ := uwp_shape
        { s with
          branchQueues :=
            aset s.branchQueues (job.user_id, job.workflow_id, job.branch_id) (hd :: t),
          ready := s.ready ++ [hd] }
        job.workflow_id
      exact ⟨_, _, ws, hws⟩

theorem ojc_workers (s : SchedState) (job : Job) :
    (on_job_complete s job).workers = s.workers := by
  obtain ⟨bq, rq, ws, hws⟩ := ojc_shape s job; rw [hws]

theorem ojc_activeUsers (s : SchedState) (job : Job) :
    (on_job_complete s job).activeUsers = s.activeUsers := by
  obtain ⟨bq, rq, ws, hws⟩ := ojc_shape s job; rw [hws]

theorem ojc_userRunningCounts (s : SchedState) (job : Job) :
    (on_job_complete s job).userRunningCounts = s.userRunningCounts := by
  obtain ⟨bq, rq, ws, hws⟩ := ojc_shape s job; rw [hws]

theorem ojc_jobs (s : SchedState) (job : Job) :
    (on_job_complete s job).store.jobs = s.store.jobs := by
  obtain ⟨bq, rq, ws, hws⟩ := ojc_shape s job; rw [hws]

theorem ojc_nextId (s : SchedState) (job : Job) :
    (on_job_complete s job).store.nextId = s.store.nextId := by
  obtain ⟨bq, rq, ws, hws⟩ := ojc_shape s job; rw [hws]

theorem ojc_now (s : SchedState) (job : Job) :
    (on_job_complete s job).now = s.now := by
  obtain ⟨bq, rq, ws, hws⟩ := ojc_shape s job; rw [hws]

/-! ## Lemmas: invariant preservation -/

theorem Inv.of_eq {cfg : Settings} {s s' : SchedState} (h : Inv cfg s)
    (hw : s'.workers = s.workers) (ha : s'.activeUsers = s.activeUsers)
    (hc : s'.userRunningCounts = s.userRunningCounts)
    (hj : s'.store.jobs = s.store.jobs) (hn : s.store.nextId ≤ s'.store.nextId) :
    Inv cfg s' := by
  constructor
  · rw [hw]; exact h.workersLen
  · rw [ha]; exact h.activeNodup
  · rw [ha]; exact h.activeLen
  · intro u; rw [hc, hw]; exact h.countEq u
  · intro u; rw [ha, hc]; exact h.activeIff u
  · intro j hm hr; rw [hw]; exact h.runningW j (hj ▸ hm) hr
  · intro ph hm jid u hrf; rw [hj]; exact h.phaseJobOk ph (hw ▸ hm) jid u hrf
  · rw [hj]; exact h.idsNodup
  · intro j hm
    have := h.idsLt j (hj ▸ hm)
    omega
  · intro j hm; exact h.fieldsNone j (hj ▸ hm)
  · rw [hc]; exact h.countsNodup

theorem inv_init (cfg : Settings) : Inv cfg (initState cfg) := by
  constructor
  · exact List.length_replicate _ _
  · exact List.nodup_nil
  · simp [initState]
  · intro u
    simp only [initState, alookup, Option.getD_none]
    symm
    rw [List.countP_eq_zero]
    intro a ha
    rw [List.eq_of_mem_replicate ha]
    simp [isExecUser]
  · intro u
    simp [initState, alookup]
  · intro j hm
    cases hm
  · intro ph hm jid u hrf
    rw [List.eq_of_mem_replicate hm] at hrf
    cases hrf
  · exact List.nodup_nil
  · intro j hm
    cases hm
  · intro j hm
    cases hm
  · exact List.nodup_nil

theorem isExecUser_eq_false_of_none {ph : WPhase} (h : phaseJobUser ph = none)
    (u : String) : isExecUser u ph = false := by
  cases ph <;> simp_all [phaseJobUser, isExecUser]

theorem isExecUser_idle (u : String) : isExecUser u WPhase.idle = false := rfl

theorem isExecUser_gateWait (u : String) (j : Nat) (u₁ : String) :
    isExecUser u (WPhase.gateWait j u₁) = false := rfl

theorem mem_active_insert (u x : String) (l : List String) :
    x ∈ (if u ∈ l then l else u :: l) ↔ x = u ∨ x ∈ l := by
  by_cases h : u ∈ l
  · simp only [if_pos h]
    constructor
    · exact Or.inr
    · rintro (rfl | hx)
      · exact h
      · exact hx
  · simp [if_neg h, List.mem_cons]

/-- The explicit form of `dispatch` when the job is present and job ids
are unique. -/
theorem dispatch_eq {s : SchedState} {jid : Nat} {job : Job} (w : Nat)
    (hnd : (s.store.jobs.map Job.job_id).Nodup) (hj : s.store.get_job jid = some job) :
    dispatch s w jid job = { s with
      store := { s.store with
        jobs := s.store.jobs.map (jobsUpd jid JobState.RUNNING none (some s.now) none) },
      activeUsers := if job.user_id ∈ s.activeUsers then s.activeUsers
        else job.user_id :: s.activeUsers,
      userRunningCounts := aset s.userRunningCounts job.user_id
        ((alookup s.userRunningCounts job.user_id).getD 0 + 1),
      workers := setNth s.workers w (WPhase.executing jid job.user_id job.workflow_id 1),
      startLog := s.startLog ++
        [⟨jid, job.user_id, job.state,
          ((alookup s.branchQueues (job.user_id, job.workflow_id, job.branch_id)).getD []).head?
            == some jid, s.now⟩] } := by
  unfold dispatch
  rw [set_job_state_eq JobState.RUNNING none none (some s.now) none none hnd hj]

theorem inv_dispatch {cfg : Settings} {s : SchedState} {w jid : Nat} {job : Job}
    {old : WPhase} (h : Inv cfg s) (hw : nth s.workers w = some old)
    (hold : phaseJobUser old = none) (hj : s.store.get_job jid = some job)
    (hg : gateOpen cfg s job.user_id) :
    Inv cfg (dispatch s w jid job) := by
  rw [dispatch_eq w h.idsNodup hj]
  have hjm := (get_job_mem hj).1
  have hjid := (get_job_mem hj).2
  apply Inv.mk <;> dsimp only
  · rw [length_setNth]; exact h.workersLen
  · by_cases hmem : job.user_id ∈ s.activeUsers
    · simpa [if_pos hmem] using h.activeNodup
    · simp only [if_neg hmem]
      exact List.nodup_cons.2 ⟨hmem, h.activeNodup⟩
  · by_cases hmem : job.user_id ∈ s.activeUsers
    · simpa [if_pos hmem] using h.activeLen
    · simp only [if_neg hmem, List.length_cons]
      rcases hg with hg | hg
      · exact absurd hg hmem
      · omega
  · intro u'
    have hcnt := countP_setNth (WPhase.executing jid job.user_id job.workflow_id 1)
      (isExecUser u') hw
    rw [isExecUser_eq_false_of_none hold] at hcnt
    by_cases hu : u' = job.user_id
    · subst hu
      rw [alookup_aset_eq]
      simp only [Option.getD_some]
      have hnew : isExecUser job.user_id
          (WPhase.executing jid job.user_id job.workflow_id 1) = true := by
        simp [isExecUser]
      rw [hnew] at hcnt
      have := h.countEq job.user_id
      simp at hcnt
      omega
    · rw [alookup_aset_ne _ _ _ _ hu]
      have hnew : isExecUser u' (WPhase.executing jid job.user_id job.workflow_id 1) = false := by
        simp only [isExecUser, beq_eq_false_iff_ne, ne_eq]
        exact fun hh => hu hh.symm
      rw [hnew] at hcnt
      have := h.countEq u'
      simp at hcnt
      omega
  · intro u'
    by_cases hu : u' = job.user_id
    · subst hu
      rw [alookup_aset_eq]
      constructor
      · intro _
        simp only [Option.getD_some]
        omega
      · intro _
        rw [mem_active_insert]
        exact Or.inl rfl
    · rw [alookup_aset_ne _ _ _ _ hu, mem_active_insert]
      have := h.activeIff u'
      constructor
      · rintro (rfl | hx)
        · exact absurd rfl hu
        · exact this.1 hx
      · intro hc
        exact Or.inr (this.2 hc)
  · intro j hm hr
    obtain ⟨a, ha, hfa⟩ := List.mem_map.1 hm
    by_cases hc : (a.job_id == jid) = true
    · have heq : a = job := jobs_eq_of_same_id h.idsNodup ha hjm (by
        rw [beq_iff_eq] at hc
        rw [hc, hjid])
      subst heq
      refine ⟨WPhase.executing jid a.user_id a.workflow_id 1, mem_setNth_self _ hw, ?_⟩
      have h1 : j.job_id = jid := by rw [← hfa, jobsUpd_job_id, (beq_iff_eq).1 hc]
      have h2 : j.user_id = a.user_id := by rw [← hfa, jobsUpd_user_id]
      rw [phaseJobUser, h1, h2]
    · have heq : j = a := by rw [← hfa]; unfold jobsUpd; rw [if_neg hc]
      subst heq
      obtain ⟨ph, hphm, hpheq⟩ := h.runningW j ha hr
      refine ⟨ph, mem_setNth_of_ne _ hw hphm ?_, hpheq⟩
      intro hcon
      rw [hcon, hold] at hpheq
      cases hpheq
  · intro ph hm jid' u' hrf
    rcases mem_setNth_cases hm with hph | hph
    · subst hph
      cases hrf
      exact ⟨jobsUpd jid JobState.RUNNING none (some s.now) none job,
        List.mem_map_of_mem _ hjm,
        by rw [jobsUpd_job_id, hjid], by rw [jobsUpd_user_id]⟩
    · obtain ⟨job₀, hjm₀, hid₀, hus₀⟩ := h.phaseJobOk ph hph jid' u' hrf
      exact ⟨jobsUpd jid JobState.RUNNING none (some s.now) none job₀,
        List.mem_map_of_mem _ hjm₀,
        by rw [jobsUpd_job_id, hid₀], by rw [jobsUpd_user_id, hus₀]⟩
  · rw [map_jobsUpd_ids]; exact h.idsNodup
  · intro j hm
    obtain ⟨a, ha, hfa⟩ := List.mem_map.1 hm
    have := h.idsLt a ha
    have hids : j.job_id = a.job_id := by rw [← hfa, jobsUpd_job_id]
    simp only [hids]
    exact this
  · intro j hm
    obtain ⟨a, ha, hfa⟩ := List.mem_map.1 hm
    have := h.fieldsNone a ha
    constructor
    · rw [← hfa, jobsUpd_completed_at]; exact this.1
    · rw [← hfa, jobsUpd_error_message]; exact this.2
  · exact aset_fst_nodup _ _ h.countsNodup

theorem create_job_eq (st : Store) (u : String) (p : JobCreate) (now : Nat) :
    st.create_job u p now =
      (⟨st.workflows, st.jobs ++ [freshJob st u p now],
        aset st.workflow_jobs p.workflow_id
          (((alookup st.workflow_jobs p.workflow_id).getD []) ++ [st.nextId]),
        st.nextId + 1⟩, freshJob st u p now) := rfl

theorem inv_enqueue {cfg : Settings} {s : SchedState} (h : Inv cfg s)
    (u : String) (p : JobCreate) : Inv cfg (enqueue_job s u p).1 := by
  unfold enqueue_job
  rw [create_job_eq]
  dsimp only
  apply inv_uwp
  apply Inv.mk <;> dsimp only
  · exact h.workersLen
  · exact h.activeNodup
  · exact h.activeLen
  · exact h.countEq
  · exact h.activeIff
  · intro j hm hr
    rcases List.mem_append.1 hm with hm | hm
    · exact h.runningW j hm hr
    · rw [List.mem_singleton] at hm
      subst hm
      simp [freshJob] at hr
  · intro ph hm jid u' hrf
    obtain ⟨job₀, hjm₀, hid₀, hus₀⟩ := h.phaseJobOk ph hm jid u' hrf
    exact ⟨job₀, List.mem_append_left _ hjm₀, hid₀, hus₀⟩
  · rw [List.map_append, List.nodup_append]
    refine ⟨h.idsNodup, List.nodup_singleton _, ?_⟩
    intro a ha hb
    simp only [List.map_cons, List.map_nil, List.mem_singleton, freshJob] at hb
    obtain ⟨j, hj, hja⟩ := List.mem_map.1 ha
    have := h.idsLt j hj
    omega
  · intro j hm
    rcases List.mem_append.1 hm with hm | hm
    · have := h.idsLt j hm
      omega
    · rw [List.mem_singleton] at hm
      subst hm
      simp [freshJob]
  · intro j hm
    rcases List.mem_append.1 hm with hm | hm
    · exact h.fieldsNone j hm
    · rw [List.mem_singleton] at hm
      subst hm
      simp [freshJob]
  · exact h.countsNodup

/-- Applying `set_job_state` with a non-RUNNING target state, together
with arbitrary rewrites of the branch queues, the ready queue and the
ghost log, preserves the invariant. -/
theorem inv_store_upd {cfg : Settings} {s : SchedState} (h : Inv cfg s)
    (jid : Nat) {ns : JobState} (p : Option ℚ) (sa : Option Nat) (rp : Option String)
    (hns : ns ≠ JobState.RUNNING) (bq : List (BranchKey × List Nat)) (rq : List Nat)
    (lg : List StartEv) :
    Inv cfg { s with
      store := { s.store with jobs := s.store.jobs.map (jobsUpd jid ns p sa rp) },
      branchQueues := bq, ready := rq, startLog := lg } := by
  apply Inv.mk <;> dsimp only
  · exact h.workersLen
  · exact h.activeNodup
  · exact h.activeLen
  · exact h.countEq
  · exact h.activeIff
  · intro j hm hr
    obtain ⟨a, ha, hfa⟩ := List.mem_map.1 hm
    subst hfa
    unfold jobsUpd at hr ⊢
    by_cases hc : (a.job_id == jid) = true
    · rw [if_pos hc, applyJobUpdate_state] at hr
      exact absurd hr hns
    · rw [if_neg hc] at hr ⊢
      exact h.runningW a ha hr
  · intro ph hm jid' u' hrf
    obtain ⟨job₀, hjm₀, hid₀, hus₀⟩ := h.phaseJobOk ph hm jid' u' hrf
    exact ⟨jobsUpd jid ns p sa rp job₀, List.mem_map_of_mem _ hjm₀,
      by rw [jobsUpd_job_id, hid₀], by rw [jobsUpd_user_id, hus₀]⟩
  · rw [map_jobsUpd_ids]
    exact h.idsNodup
  · intro j hm
    obtain ⟨a, ha, hfa⟩ := List.mem_map.1 hm
    have := h.idsLt a ha
    have hids : j.job_id = a.job_id := by rw [← hfa, jobsUpd_job_id]
    rw [hids]
    exact this
  · intro j hm
    obtain ⟨a, ha, hfa⟩ := List.mem_map.1 hm
    have := h.fieldsNone a ha
    exact ⟨by rw [← hfa, jobsUpd_completed_at]; exact this.1,
      by rw [← hfa, jobsUpd_error_message]; exact this.2⟩
  · exact h.countsNodup

/-- Applying `set_job_state(..., RUNNING, ...)` to the job a worker is
executing preserves the invariant. -/
theorem inv_set_running {cfg : Settings} {s : SchedState} {w jid : Nat} {u : String}
    {wfid i : Nat} (h : Inv cfg s)
    (hw : nth s.workers w = some (WPhase.executing jid u wfid i))
    (p : Option ℚ) (sa : Option Nat) (rp : Option String) :
    Inv cfg { s with
      store := { s.store with
        jobs := s.store.jobs.map (jobsUpd jid JobState.RUNNING p sa rp) } } := by
  obtain ⟨job₀, hjm₀, hid₀, hus₀⟩ := h.phaseJobOk
    (WPhase.executing jid u wfid i) (mem_of_nth hw) jid u rfl
  apply Inv.mk <;> dsimp only
  · exact h.workersLen
  · exact h.activeNodup
  · exact h.activeLen
  · exact h.countEq
  · exact h.activeIff
  · intro j hm hr
    obtain ⟨a, ha, hfa⟩ := List.mem_map.1 hm
    subst hfa
    unfold jobsUpd at hr ⊢
    by_cases hc : (a.job_id == jid) = true
    · have heq : a = job₀ := jobs_eq_of_same_id h.idsNodup ha hjm₀ (by
        rw [beq_iff_eq] at hc
        rw [hc, hid₀])
      refine ⟨WPhase.executing jid u wfid i, mem_of_nth hw, ?_⟩
      rw [if_pos hc, phaseJobUser, applyJobUpdate_job_id, applyJobUpdate_user_id,
        (beq_iff_eq).1 hc, heq, hus₀]
    · rw [if_neg hc] at hr ⊢
      exact h.runningW a ha hr
  · intro ph hm jid' u' hrf
    obtain ⟨job₁, hjm₁, hid₁, hus₁⟩ := h.phaseJobOk ph hm jid' u' hrf
    exact ⟨jobsUpd jid JobState.RUNNING p sa rp job₁, List.mem_map_of_mem _ hjm₁,
      by rw [jobsUpd_job_id, hid₁], by rw [jobsUpd_user_id, hus₁]⟩
  · rw [map_jobsUpd_ids]
    exact h.idsNodup
  · intro j hm
    obtain ⟨a, ha, hfa⟩ := List.mem_map.1 hm
    have := h.idsLt a ha
    have hids : j.job_id = a.job_id := by rw [← hfa, jobsUpd_job_id]
    rw [hids]
    exact this
  · intro j hm
    obtain ⟨a, ha, hfa⟩ := List.mem_map.1 hm
    have := h.fieldsNone a ha
    exact ⟨by rw [← hfa, jobsUpd_completed_at]; exact this.1,
      by rw [← hfa, jobsUpd_error_message]; exact this.2⟩
  · exact h.countsNodup

/-- Replacing an executing worker phase by another executing phase for the
same job and user preserves the invariant. -/
theorem inv_retag {cfg : Settings} {s : SchedState} {w jid : Nat} {u : String}
    {wfid i : Nat} (h : Inv cfg s)
    (hw : nth s.workers w = some (WPhase.executing jid u wfid i))
    (wfid' i' : Nat) :
    Inv cfg { s with
      workers := setNth s.workers w (WPhase.executing jid u wfid' i') } := by
  apply Inv.mk <;> dsimp only
  · rw [length_setNth]
    exact h.workersLen
  · exact h.activeNodup
  · exact h.activeLen
  · intro u'
    have hcnt := countP_setNth (WPhase.executing jid u wfid' i') (isExecUser u') hw
    have hsame : isExecUser u' (WPhase.executing jid u wfid i)
        = isExecUser u' (WPhase.executing jid u wfid' i') := by
      simp [isExecUser]
    rw [hsame] at hcnt
    have := h.countEq u'
    omega
  · exact h.activeIff
  · intro j hm hr
    obtain ⟨ph, hphm, hpheq⟩ := h.runningW j hm hr
    by_cases hph : ph = WPhase.executing jid u wfid i
    · refine ⟨WPhase.executing jid u wfid' i', mem_setNth_self _ hw, ?_⟩
      rw [hph] at hpheq
      rw [phaseJobUser] at hpheq ⊢
      exact hpheq
    · exact ⟨ph, mem_setNth_of_ne _ hw hphm hph, hpheq⟩
  · intro ph hm jid' u' hrf
    rcases mem_setNth_cases hm with hph | hph
    · subst hph
      cases hrf
      exact h.phaseJobOk (WPhase.executing jid u wfid i) (mem_of_nth hw) jid u rfl
    · exact h.phaseJobOk ph hph jid' u' hrf
  · exact h.idsNodup
  · exact h.idsLt
  · exact h.fieldsNone
  · exact h.countsNodup

/-- Parking an idle worker at the gate preserves the invariant. -/
theorem inv_gateWait {cfg : Settings} {s : SchedState} {w jid : Nat} {job : Job}
    (h : Inv cfg s) (hw : nth s.workers w = some WPhase.idle)
    (hj : s.store.get_job jid = some job) :
    Inv cfg { s with
      workers := setNth s.workers w (WPhase.gateWait jid job.user_id) } := by
  apply Inv.mk <;> dsimp only
  · rw [length_setNth]
    exact h.workersLen
  · exact h.activeNodup
  · exact h.activeLen
  · intro u'
    have hcnt := countP_setNth (WPhase.gateWait jid job.user_id) (isExecUser u') hw
    rw [isExecUser_idle, isExecUser_gateWait] at hcnt
    have := h.countEq u'
    omega
  · exact h.activeIff
  · intro j hm hr
    obtain ⟨ph, hphm, hpheq⟩ := h.runningW j hm hr
    refine ⟨ph, mem_setNth_of_ne _ hw hphm ?_, hpheq⟩
    intro hcon
    rw [hcon] at hpheq
    cases hpheq
  · intro ph hm jid' u' hrf
    rcases mem_setNth_cases hm with hph | hph
    · subst hph
      cases hrf
      exact ⟨job, (get_job_mem hj).1, (get_job_mem hj).2, rfl⟩
    · exact h.phaseJobOk ph hph jid' u' hrf
  · exact h.idsNodup
  · exact h.idsLt
  · exact h.fieldsNone
  · exact h.countsNodup

/-- The cleanup block at the end of `_worker_loop`: decrement the running
count of the user, release the fairness slot when it reaches zero, and
return the worker to the ready-queue wait.  Requires that the finished job
is no longer RUNNING. -/
theorem inv_finish_release {cfg : Settings} {s : SchedState} {w jid : Nat}
    {u : String} {wfid i : Nat} (h : Inv cfg s)
    (hw : nth s.workers w = some (WPhase.executing jid u wfid i))
    (hnr : ∀ j ∈ s.store.jobs, j.state = JobState.RUNNING → j.job_id ≠ jid) :
    Inv cfg (
      let c := (alookup s.userRunningCounts u).getD 0
      let s₄ : SchedState := if c ≤ 1 then
          { s with
            userRunningCounts := aerase s.userRunningCounts u,
            activeUsers := s.activeUsers.erase u }
        else { s with userRunningCounts := aset s.userRunningCounts u (c - 1) }
      { s₄ with workers := setNth s₄.workers w WPhase.idle }) := by
  have hexec : isExecUser u (WPhase.executing jid u wfid i) = true := by
    simp [isExecUser]
  have hc1 : 1 ≤ (alookup s.userRunningCounts u).getD 0 := by
    rw [h.countEq u]
    exact countP_pos_of_mem (mem_of_nth hw) hexec
  have hcnt0 := fun u' => countP_setNth WPhase.idle (isExecUser u') hw
  have hrun : ∀ j, j ∈ s.store.jobs → j.state = JobState.RUNNING →
      ∃ ph ∈ setNth s.workers w WPhase.idle,
        phaseJobUser ph = some (j.job_id, j.user_id) := by
    intro j hm hr
    obtain ⟨ph, hphm, hpheq⟩ := h.runningW j hm hr
    refine ⟨ph, mem_setNth_of_ne _ hw hphm ?_, hpheq⟩
    intro hcon
    rw [hcon, phaseJobUser] at hpheq
    exact (hnr j hm hr) (by cases hpheq; rfl)
  by_cases hle : (alookup s.userRunningCounts u).getD 0 ≤ 1
  · simp only [if_pos hle]
    apply Inv.mk <;> dsimp only
    · rw [length_setNth]
      exact h.workersLen
    · exact h.activeNodup.erase u
    · exact le_trans ((List.erase_sublist u s.activeUsers).length_le) h.activeLen
    · intro u'
      have hcnt := hcnt0 u'
      by_cases hu : u' = u
      · subst hu
        rw [alookup_aerase_eq _ _ h.countsNodup]
        rw [isExecUser_idle, hexec] at hcnt
        have := h.countEq u'
        simp at hcnt
        simp only [Option.getD_none]
        omega
      · rw [alookup_aerase_ne _ _ _ (fun hh => hu hh)]
        have hne : isExecUser u' (WPhase.executing jid u wfid i) = false := by
          simp only [isExecUser, beq_eq_false_iff_ne, ne_eq]
          exact fun hh => hu hh.symm
        rw [isExecUser_idle, hne] at hcnt
        have := h.countEq u'
        simp at hcnt
        omega
    · intro u'
      by_cases hu : u' = u
      · subst hu
        rw [alookup_aerase_eq _ _ h.countsNodup]
        constructor
        · intro hmem
          exact absurd ((h.activeNodup.mem_erase_iff.1 hmem).1) (by simp)
        · intro hcon
          simp at hcon
      · rw [alookup_aerase_ne _ _ _ (fun hh => hu hh)]
        rw [List.mem_erase_of_ne hu]
        exact h.activeIff u'
    · exact hrun
    · intro ph hm jid' u' hrf
      rcases mem_setNth_cases hm with hph | hph
      · subst hph
        cases hrf
      · exact h.phaseJobOk ph hph jid' u' hrf
    · exact h.idsNodup
    · exact h.idsLt
    · exact h.fieldsNone
    · exact aerase_fst_nodup _ h.countsNodup
  · simp only [if_neg hle]
    apply Inv.mk <;> dsimp only
    · rw [length_setNth]
      exact h.workersLen
    · exact h.activeNodup
    · exact h.activeLen
    · intro u'
      have hcnt := hcnt0 u'
      by_cases hu : u' = u
      · subst hu
        rw [alookup_aset_eq]
        rw [isExecUser_idle, hexec] at hcnt
        have := h.countEq u'
        simp at hcnt
        simp only [Option.getD_some]
        omega
      · rw [alookup_aset_ne _ _ _ _ hu]
        have hne : isExecUser u' (WPhase.executing jid u wfid i) = false := by
          simp only [isExecUser, beq_eq_false_iff_ne, ne_eq]
          exact fun hh => hu hh.symm
        rw [isExecUser_idle, hne] at hcnt
        have := h.countEq u'
        simp at hcnt
        omega
    · intro u'
      by_cases hu : u' = u
      · subst hu
        rw [alookup_aset_eq]
        constructor
        · intro _
          simp only [Option.getD_some]
          omega
        · intro _
          exact (h.activeIff u').2 (by omega)
      · rw [alookup_aset_ne _ _ _ _ hu]
        exact h.activeIff u'
    · exact hrun
    · intro ph hm jid' u' hrf
      rcases mem_setNth_cases hm with hph | hph
      · subst hph
        cases hrf
      · exact h.phaseJobOk ph hph jid' u' hrf
    · exact h.idsNodup
    · exact h.idsLt
    · exact h.fieldsNone
    · exact aset_fst_nodup _ _ h.countsNodup

theorem inv_ojc {cfg : Settings} {s : SchedState} (h : Inv cfg s) (job : Job) :
    Inv cfg (on_job_complete s job) :=
  Inv.of_eq h (ojc_workers s job) (ojc_activeUsers s job)
    (ojc_userRunningCounts s job) (ojc_jobs s job)
    (le_of_eq (ojc_nextId s job).symm)

theorem inv_cancel {cfg : Settings} {s : SchedState} (h : Inv cfg s) (u : String)
    (jid : Nat) {s' : SchedState} {job : Job}
    (hc : cancel_job s u jid = Except.ok (s', job)) : Inv cfg s' := by
  unfold cancel_job at hc
  cases hget : s.store.get_job jid with
  | none =>
    rw [hget] at hc
    cases hc
  | some job₀ =>
    rw [hget] at hc
    dsimp only at hc
    by_cases howner : job₀.user_id ≠ u
    · rw [if_pos howner] at hc
      cases hc
    · rw [if_neg howner] at hc
      by_cases hstate : job₀.state ≠ JobState.PENDING
      · rw [if_pos hstate] at hc
        cases hc
        exact h
      · rw [if_neg hstate] at hc
        rw [set_job_state_eq JobState.CANCELLED (some 0) none none (some s.now) none
          h.idsNodup hget] at hc
        dsimp only at hc
        split at hc
        · cases hc
          apply inv_uwp
          exact inv_store_upd h jid (some 0) none none (by decide) _ _ _
        · cases hc
          apply inv_uwp
          exact inv_store_upd h jid (some 0) none none (by decide) _ _ _

theorem invStep {cfg : Settings} {s s' : SchedState} {σ : Step} (h : Inv cfg s)
    (hs : stepFn cfg σ s = some s') : Inv cfg s' := by
  cases σ with
  | createWorkflow u name =>
    simp only [stepFn] at hs
    cases hs
    exact Inv.of_eq h rfl rfl rfl rfl (Nat.le_succ _)
  | enqueue u p =>
    simp only [stepFn] at hs
    cases hs
    exact inv_enqueue h u p
  | cancel u jid =>
    simp only [stepFn] at hs
    cases hcj : cancel_job s u jid with
    | ok pr =>
      obtain ⟨s₁, job⟩ := pr
      rw [hcj] at hs
      dsimp only at hs
      cases hs
      exact inv_cancel h u jid hcj
    | error e =>
      rw [hcj] at hs
      dsimp only at hs
      cases hs
      exact h
  | fetch w =>
    simp only [stepFn] at hs
    cases hph : nth s.workers w with
    | none =>
      rw [hph] at hs
      cases hs
    | some ph =>
      rw [hph] at hs
      cases ph with
      | gateWait j u => cases hs
      | executing j u wf i => cases hs
      | idle =>
        dsimp only at hs
        cases hrd : s.ready with
        | nil =>
          rw [hrd] at hs
          cases hs
        | cons jid rest =>
          rw [hrd] at hs
          dsimp only at hs
          have h₁ : Inv cfg { s with ready := rest } :=
            Inv.of_eq h rfl rfl rfl rfl le_rfl
          cases hget : s.store.get_job jid with
          | none =>
            rw [hget] at hs
            cases hs
            exact h₁
          | some job =>
            rw [hget] at hs
            dsimp only at hs
            by_cases hpend : job.state ≠ JobState.PENDING
            · rw [if_pos hpend] at hs
              cases hs
              exact h₁
            · rw [if_neg hpend] at hs
              by_cases hgate : gateOpen cfg { s with ready := rest } job.user_id
              · rw [if_pos hgate] at hs
                cases hs
                exact inv_dispatch h₁ hph rfl hget hgate
              · rw [if_neg hgate] at hs
                cases hs
                exact inv_gateWait h₁ hph hget
  | retry w =>
    simp only [stepFn] at hs
    cases hph : nth s.workers w with
    | none =>
      rw [hph] at hs
      cases hs
    | some ph =>
      rw [hph] at hs
      cases ph with
      | idle => cases hs
      | executing j u wf i => cases hs
      | gateWait jid u =>
        dsimp only at hs
        by_cases hgate : gateOpen cfg s u
        · rw [if_pos hgate] at hs
          cases hget : s.store.get_job jid with
          | none =>
            rw [hget] at hs
            cases hs
            exact h
          | some job =>
            rw [hget] at hs
            cases hs
            obtain ⟨job₀, hm₀, hid₀, hus₀⟩ :=
              h.phaseJobOk (WPhase.gateWait jid u) (mem_of_nth hph) jid u rfl
            have huser : job.user_id = u := by
              have heq : job = job₀ := jobs_eq_of_same_id h.idsNodup
                (get_job_mem hget).1 hm₀ (by rw [(get_job_mem hget).2, hid₀])
              rw [heq, hus₀]
            exact inv_dispatch h hph rfl hget (huser ▸ hgate)
        · rw [if_neg hgate] at hs
          cases hs
          exact h
  | tick =>
    simp only [stepFn] at hs
    cases hs
    exact Inv.of_eq h rfl rfl rfl rfl le_rfl
  | run w =>
    simp only [stepFn] at hs
    cases hph : nth s.workers w with
    | none =>
      rw [hph] at hs
      cases hs
    | some ph =>
      rw [hph] at hs
      cases ph with
      | idle => cases hs
      | gateWait j u => cases hs
      | executing jid u wfid i =>
        dsimp only at hs
        obtain ⟨job₀, hm₀, hid₀, hus₀⟩ :=
          h.phaseJobOk (WPhase.executing jid u wfid i) (mem_of_nth hph) jid u rfl
        have hget : s.store.get_job jid = some job₀ := by
          rw [← hid₀]
          exact get_job_eq_some_of_mem h.idsNodup hm₀
        by_cases hi : i < 10
        · rw [if_pos hi] at hs
          rw [set_job_state_eq JobState.RUNNING (some ((i : ℚ) / 10)) none none none none
            h.idsNodup hget] at hs
          dsimp only at hs
          cases hs
          have hA : Inv cfg { s with store := { s.store with
              jobs := s.store.jobs.map (jobsUpd jid JobState.RUNNING (some ((i : ℚ) / 10)) none none) } } :=
            inv_set_running h hph _ _ _
          have hB := inv_uwp hA wfid
          have hwB : nth (update_workflow_progress { s with store := { s.store with
              jobs := s.store.jobs.map (jobsUpd jid JobState.RUNNING (some ((i : ℚ) / 10)) none none) } } wfid).workers w
              = some (WPhase.executing jid u wfid i) := by
            rw [uwp_workers]
            exact hph
          exact inv_retag hB hwB wfid (i + 1)
        · rw [if_neg hi] at hs
          rw [set_job_state_eq JobState.RUNNING (some 1) none none none none
            h.idsNodup hget] at hs
          dsimp only at hs
          set A : SchedState := { s with store := { s.store with
            jobs := s.store.jobs.map (jobsUpd jid JobState.RUNNING (some 1) none none) } } with hAdef
          have hA : Inv cfg A := inv_set_running h hph (some 1) none none
          have hB : Inv cfg (update_workflow_progress A wfid) := inv_uwp hA wfid
          have hwB : nth (update_workflow_progress A wfid).workers w
              = some (WPhase.executing jid u wfid i) := by
            rw [uwp_workers]
            exact hph
          have hg1 : (update_workflow_progress A wfid).store.get_job jid
              = some (applyJobUpdate job₀ JobState.RUNNING (some 1) none none) := by
            have hjobs : (update_workflow_progress A wfid).store.jobs = A.store.jobs :=
              uwp_jobs A wfid
            unfold Store.get_job at hget ⊢
            rw [hjobs]
            have := find?_map_pres s.store.jobs (jobsUpd jid JobState.RUNNING (some 1) none none)
              (fun j => j.job_id == jid) (fun a => by simp only [jobsUpd_job_id])
            rw [this, hget]
            have hbeq : (job₀.job_id == jid) = true := by
              rw [beq_iff_eq]
              exact hid₀
            rw [Option.map_some']
            unfold jobsUpd
            rw [if_pos hbeq]
          rw [hg1] at hs
          dsimp only at hs
          rw [if_pos (applyJobUpdate_state job₀ JobState.RUNNING (some 1) none none)] at hs
          rw [set_job_state_eq JobState.SUCCEEDED (some 1) none none
            (some (update_workflow_progress A wfid).now) none hB.idsNodup hg1] at hs
          dsimp only at hs
          set B : SchedState := update_workflow_progress A wfid with hBdef
          set C : SchedState := { B with store := { B.store with
            jobs := B.store.jobs.map (jobsUpd jid JobState.SUCCEEDED (some 1) none none) } } with hCdef
          have hC : Inv cfg C :=
            inv_store_upd hB jid (some 1) none none (by decide) _ _ _
          have hg2 : C.store.get_job jid
              = some (applyJobUpdate (applyJobUpdate job₀ JobState.RUNNING (some 1) none none)
                JobState.SUCCEEDED (some 1) none none) := by
            unfold Store.get_job
            rw [hCdef]
            dsimp only
            have := find?_map_pres B.store.jobs (jobsUpd jid JobState.SUCCEEDED (some 1) none none)
              (fun j => j.job_id == jid) (fun a => by simp only [jobsUpd_job_id])
            rw [this]
            unfold Store.get_job at hg1
            rw [hg1]
            have hbeq : ((applyJobUpdate job₀ JobState.RUNNING (some 1) none none).job_id == jid) = true := by
              rw [beq_iff_eq, applyJobUpdate_job_id]
              exact hid₀
            rw [Option.map_some']
            unfold jobsUpd
            rw [if_pos hbeq]
          rw [hg2] at hs
          dsimp only at hs
          cases hs
          have hwC : nth C.workers w = some (WPhase.executing jid u wfid i) := by
            rw [hCdef]
            exact hwB
          have hnr : ∀ j ∈ C.store.jobs, j.state = JobState.RUNNING → j.job_id ≠ jid := by
            intro j hm hr hcon
            have hgj : C.store.get_job j.job_id = some j :=
              get_job_eq_some_of_mem hC.idsNodup hm
            rw [hcon, hg2] at hgj
            have := Option.some.inj hgj
            rw [← this] at hr
            rw [applyJobUpdate_state] at hr
            cases hr
          have hD : Inv cfg (on_job_complete C
              (applyJobUpdate (applyJobUpdate job₀ JobState.RUNNING (some 1) none none)
                JobState.SUCCEEDED (some 1) none none)) :=
            inv_ojc hC _
          have hwD : nth (on_job_complete C
              (applyJobUpdate (applyJobUpdate job₀ JobState.RUNNING (some 1) none none)
                JobState.SUCCEEDED (some 1) none none)).workers w
              = some (WPhase.executing jid u wfid i) := by
            rw [ojc_workers]
            exact hwC
          have hnrD : ∀ j ∈ (on_job_complete C
              (applyJobUpdate (applyJobUpdate job₀ JobState.RUNNING (some 1) none none)
                JobState.SUCCEEDED (some 1) none none)).store.jobs,
              j.state = JobState.RUNNING → j.job_id ≠ jid := by
            rw [ojc_jobs]
            exact hnr
          exact inv_finish_release hD hwD hnrD

theorem inv_reachable {cfg : Settings} {s : SchedState} (h : Reachable cfg s) :
    Inv cfg s := by
  induction h with
  | init => exact inv_init cfg
  | next hr hstep ih => exact invStep ih hstep

/-! ## Lemmas: the active-user set across one transition -/

theorem dispatch_activeUsers (s : SchedState) (w jid : Nat) (job : Job) :
    (dispatch s w jid job).activeUsers =
      if job.user_id ∈ s.activeUsers then s.activeUsers
      else job.user_id :: s.activeUsers := rfl

theorem enqueue_job_activeUsers (s : SchedState) (u : String) (p : JobCreate) :
    (enqueue_job s u p).1.activeUsers = s.activeUsers := by
  unfold enqueue_job
  rw [create_job_eq]
  dsimp only
  rw [uwp_activeUsers]

theorem cancel_job_activeUsers {s s' : SchedState} {u : String} {jid : Nat} {job : Job}
    (hc : cancel_job s u jid = Except.ok (s', job)) :
    s'.activeUsers = s.activeUsers := by
  unfold cancel_job at hc
  cases hget : s.store.get_job jid with
  | none =>
    rw [hget] at hc
    cases hc
  | some job₀ =>
    rw [hget] at hc
    dsimp only at hc
    by_cases howner : job₀.user_id ≠ u
    · rw [if_pos howner] at hc
      cases hc
    · rw [if_neg howner] at hc
      by_cases hstate : job₀.state ≠ JobState.PENDING
      · rw [if_pos hstate] at hc
        cases hc
        rfl
      · rw [if_neg hstate] at hc
        cases hsjs : s.store.set_job_state jid JobState.CANCELLED (some 0) none none (some s.now) none with
        | mk st' r =>
          rw [hsjs] at hc
          cases r with
          | none =>
            dsimp only at hc
            cases hc
            rfl
          | some job' =>
            dsimp only at hc
            split at hc
            · cases hc
              rw [uwp_activeUsers]
            · cases hc
              rw [uwp_activeUsers]

/-- The tail of the worker cleanup block keeps the active set inside the
previous one. -/
theorem finish_tail_active {s₃ : SchedState} {w : Nat} {u u₁ : String}
    (hmem : u₁ ∈ ((
      let c := (alookup s₃.userRunningCounts u).getD 0
      let s₄ : SchedState := if c ≤ 1 then
          { s₃ with
            userRunningCounts := aerase s₃.userRunningCounts u,
            activeUsers := s₃.activeUsers.erase u }
        else { s₃ with userRunningCounts := aset s₃.userRunningCounts u (c - 1) }
      { s₄ with workers := setNth s₄.workers w WPhase.idle }) : SchedState).activeUsers) :
    u₁ ∈ s₃.activeUsers := by
  dsimp only at hmem
  by_cases hc : (alookup s₃.userRunningCounts u).getD 0 ≤ 1
  · rw [if_pos hc] at hmem
    exact List.mem_of_mem_erase hmem
  · rw [if_neg hc] at hmem
    exact hmem

/-- The tail of the worker cleanup block removes the user when its running
count was at most one. -/
theorem finish_tail_not_mem {s₃ : SchedState} {w : Nat} {u : String}
    (hn : s₃.activeUsers.Nodup) (hc : (alookup s₃.userRunningCounts u).getD 0 ≤ 1) :
    u ∉ ((
      let c := (alookup s₃.userRunningCounts u).getD 0
      let s₄ : SchedState := if c ≤ 1 then
          { s₃ with
            userRunningCounts := aerase s₃.userRunningCounts u,
            activeUsers := s₃.activeUsers.erase u }
        else { s₃ with userRunningCounts := aset s₃.userRunningCounts u (c - 1) }
      { s₄ with workers := setNth s₄.workers w WPhase.idle }) : SchedState).activeUsers := by
  dsimp only
  rw [if_pos hc]
  intro hmem
  exact (hn.mem_erase_iff.1 hmem).1 rfl

/-- Across any enabled transition, a user active afterwards was already
active, or a fairness slot was free beforehand: no step inserts a user
into a full active set. -/
theorem step_active_guard {cfg : Settings} {s s' : SchedState} {σ : Step}
    (h : Inv cfg s) (hs : stepFn cfg σ s = some s') :
    ∀ u₁, u₁ ∈ s'.activeUsers →
      u₁ ∈ s.activeUsers ∨ s.activeUsers.length < cfg.MAX_ACTIVE_USERS := by
  cases σ with
  | createWorkflow u name =>
    simp only [stepFn] at hs
    cases hs
    exact fun u₁ hm => Or.inl hm
  | enqueue u p =>
    simp only [stepFn] at hs
    cases hs
    intro u₁ hm
    rw [enqueue_job_activeUsers] at hm
    exact Or.inl hm
  | cancel u jid =>
    simp only [stepFn] at hs
    cases hcj : cancel_job s u jid with
    | ok pr =>
      obtain ⟨s₁, job⟩ := pr
      rw [hcj] at hs
      dsimp only at hs
      cases hs
      intro u₁ hm
      rw [cancel_job_activeUsers hcj] at hm
      exact Or.inl hm
    | error e =>
      rw [hcj] at hs
      dsimp only at hs
      cases hs
      exact fun u₁ hm => Or.inl hm
  | tick =>
    simp only [stepFn] at hs
    cases hs
    exact fun u₁ hm => Or.inl hm
  | fetch w =>
    simp only [stepFn] at hs
    cases hph : nth s.workers w with
    | none =>
      rw [hph] at hs
      cases hs
    | some ph =>
      rw [hph] at hs
      cases ph with
      | gateWait j u => cases hs
      | executing j u wf i => cases hs
      | idle =>
        dsimp only at hs
        cases hrd : s.ready with
        | nil =>
          rw [hrd] at hs
          cases hs
        | cons jid rest =>
          rw [hrd] at hs
          dsimp only at hs
          cases hget : s.store.get_job jid with
          | none =>
            rw [hget] at hs
            cases hs
            exact fun u₁ hm => Or.inl hm
          | some job =>
            rw [hget] at hs
            dsimp only at hs
            by_cases hpend : job.state ≠ JobState.PENDING
            · rw [if_pos hpend] at hs
              cases hs
              exact fun u₁ hm => Or.inl hm
            · rw [if_neg hpend] at hs
              by_cases hgate : gateOpen cfg { s with ready := rest } job.user_id
              · rw [if_pos hgate] at hs
                cases hs
                intro u₁ hm
                rw [dispatch_activeUsers, mem_active_insert] at hm
                rcases hm with hm | hm
                · subst hm
                  exact hgate
                · exact Or.inl hm
              · rw [if_neg hgate] at hs
                cases hs
                exact fun u₁ hm => Or.inl hm
  | retry w =>
    simp only [stepFn] at hs
    cases hph : nth s.workers w with
    | none =>
      rw [hph] at hs
      cases hs
    | some ph =>
      rw [hph] at hs
      cases ph with
      | idle => cases hs
      | executing j u wf i => cases hs
      | gateWait jid u =>
        dsimp only at hs
        by_cases hgate : gateOpen cfg s u
        · rw [if_pos hgate] at hs
          cases hget : s.store.get_job jid with
          | none =>
            rw [hget] at hs
            cases hs
            exact fun u₁ hm => Or.inl hm
          | some job =>
            rw [hget] at hs
            cases hs
            intro u₁ hm
            rw [dispatch_activeUsers, mem_active_insert] at hm
            rcases hm with hm | hm
            · subst hm
              obtain ⟨job₀, hm₀, hid₀, hus₀⟩ :=
                h.phaseJobOk (WPhase.gateWait jid u) (mem_of_nth hph) jid u rfl
              have heq : job = job₀ := jobs_eq_of_same_id h.idsNodup
                (get_job_mem hget).1 hm₀ (by rw [(get_job_mem hget).2, hid₀])
              rw [heq, hus₀]
              exact hgate
            · exact Or.inl hm
        · rw [if_neg hgate] at hs
          cases hs
          exact fun u₁ hm => Or.inl hm
  | run w =>
    simp only [stepFn] at hs
    cases hph : nth s.workers w with
    | none =>
      rw [hph] at hs
      cases hs
    | some ph =>
      rw [hph] at hs
      cases ph with
      | idle => cases hs
      | gateWait j u => cases hs
      | executing jid u wfid i =>
        dsimp only at hs
        by_cases hi : i < 10
        · rw [if_pos hi] at hs
          cases hs
          intro u₁ hm
          dsimp only at hm
          rw [uwp_activeUsers] at hm
          exact Or.inl hm
        · rw [if_neg hi] at hs
          repeat' split at hs
          all_goals
            (cases hs
             intro u₁ hm
             dsimp only at hm
             try have hm := List.mem_of_mem_erase hm
             simp only [ojc_activeUsers, uwp_activeUsers] at hm
             exact Or.inl hm)

/-! ## Claims -/

/-- Claim C1: at every reachable state of the scheduler, the set of
distinct users that have at least one job in state RUNNING has cardinality
at most MAX_ACTIVE_USERS; and across any enabled transition a user is in
the new active set only when it was already active or a fairness slot was
free, so the worker loop never adds a user to a full active set. -/
theorem c1_active_user_cap (cfg : Settings) (s : SchedState)
    (h : Reachable cfg s) :
    (runningUsers s).length ≤ cfg.MAX_ACTIVE_USERS ∧
    ∀ σ s', stepFn cfg σ s = some s' → ∀ u, u ∈ s'.activeUsers →
      u ∈ s.activeUsers ∨ s.activeUsers.length < cfg.MAX_ACTIVE_USERS := by
  have hinv := inv_reachable h
  constructor
  · have hsub : runningUsers s ⊆ s.activeUsers := by
      intro x hx
      unfold runningUsers at hx
      rw [List.mem_dedup] at hx
      obtain ⟨j, hj, hjx⟩ := List.mem_map.1 hx
      unfold runningJobs at hj
      rw [List.mem_filter] at hj
      have hr : j.state = JobState.RUNNING := by
        have := hj.2
        rwa [beq_iff_eq] at this
      obtain ⟨ph, hphm, hpheq⟩ := hinv.runningW j hj.1 hr
      have hcount : 1 ≤ (alookup s.userRunningCounts j.user_id).getD 0 := by
        rw [hinv.countEq]
        apply countP_pos_of_mem hphm
        cases ph with
        | idle => cases hpheq
        | gateWait a b => cases hpheq
        | executing a b c d =>
          rw [phaseJobUser] at hpheq
          cases hpheq
          simp [isExecUser]
      rw [← hjx]
      exact (hinv.activeIff j.user_id).2 hcount
    have hnd : (runningUsers s).Nodup := List.nodup_dedup _
    exact le_trans (List.Subperm.length_le (List.subperm_of_subset hnd hsub))
      hinv.activeLen
  · exact fun σ s' hs => step_active_guard hinv hs

/-- Witness for C1 at a concrete reachable state holding one RUNNING job. -/
theorem c1_witness :
    (runningUsers w1State).length = 1 ∧
    (runningUsers w1State).length ≤ settings.MAX_ACTIVE_USERS :=
  ⟨by decide,
    (c1_active_user_cap settings w1State
      (reachable_of_trace settings w1Trace (by rfl))).1⟩

/-- Claim C3: at every reachable state, the scheduler has exactly
MAX_WORKERS worker tasks, and the number of RUNNING jobs is bounded by the
number of workers (each worker holds at most one job), hence by
MAX_WORKERS. -/
theorem c3_worker_cap (cfg : Settings) (s : SchedState) (h : Reachable cfg s) :
    s.workers.length = cfg.MAX_WORKERS ∧
    (runningJobs s).length ≤ s.workers.length ∧
    (runningJobs s).length ≤ cfg.MAX_WORKERS := by
  have hinv := inv_reachable h
  have hlen : (runningJobs s).length ≤ s.workers.length := by
    have hids : ((runningJobs s).map Job.job_id).Nodup := by
      have hsub : ((runningJobs s).map Job.job_id).Sublist (s.store.jobs.map Job.job_id) :=
        List.Sublist.map _ (List.filter_sublist _)
      exact List.Nodup.sublist hsub hinv.idsNodup
    have hsubset : (runningJobs s).map Job.job_id ⊆
        s.workers.filterMap (fun ph => (phaseJobUser ph).map Prod.fst) := by
      intro x hx
      obtain ⟨j, hj, hjx⟩ := List.mem_map.1 hx
      unfold runningJobs at hj
      rw [List.mem_filter] at hj
      have hr : j.state = JobState.RUNNING := by
        have := hj.2
        rwa [beq_iff_eq] at this
      obtain ⟨ph, hphm, hpheq⟩ := hinv.runningW j hj.1 hr
      rw [List.mem_filterMap]
      refine ⟨ph, hphm, ?_⟩
      rw [hpheq, ← hjx]
      rfl
    calc (runningJobs s).length
        = ((runningJobs s).map Job.job_id).length := (List.length_map _ _).symm
      _ ≤ (s.workers.filterMap (fun ph => (phaseJobUser ph).map Prod.fst)).length :=
          List.Subperm.length_le (List.subperm_of_subset hids hsubset)
      _ ≤ s.workers.length := List.length_filterMap_le _ _
  exact ⟨hinv.workersLen, hlen, by rw [← hinv.workersLen]; exact hlen⟩

/-- Witness for C3 at a concrete reachable state holding one RUNNING job. -/
theorem c3_witness :
    (runningJobs w1State).length = 1 ∧
    (runningJobs w1State).length ≤ settings.MAX_WORKERS :=
  ⟨by decide,
    (c3_worker_cap settings w1State
      (reachable_of_trace settings w1Trace (by rfl))).2.2⟩

/-- Claim C10: every job record ever stored has `completed_at = None` and
`error_message = None`: in every reachable state all stored jobs carry
none in both fields, and `set_job_state` preserves both fields whatever
`finished_at` and `error` arguments it receives, because the update is
written under dictionary keys that the `Job` model does not declare and
pydantic discards them. -/
theorem c10_fields_never_populated (cfg : Settings) (s : SchedState)
    (h : Reachable cfg s) :
    (∀ j ∈ s.store.jobs, j.completed_at = none ∧ j.error_message = none) ∧
    ∀ (st : Store) (jid : Nat) (ns : JobState) (p : Option ℚ) (e : Option String)
      (sa fa : Option Nat) (rp : Option String) (j j' : Job),
      st.get_job jid = some j →
      (st.set_job_state jid ns p e sa fa rp).2 = some j' →
      j'.completed_at = j.completed_at ∧ j'.error_message = j.error_message := by
  constructor
  · exact (inv_reachable h).fieldsNone
  · intro st jid ns p e sa fa rp j j' hget hset
    unfold Store.set_job_state at hset
    rw [hget] at hset
    dsimp only at hset
    cases hset
    exact ⟨applyJobUpdate_completed_at j ns p sa rp,
      applyJobUpdate_error_message j ns p sa rp⟩

/-- Witness for C10 at a concrete reachable state and a concrete update. -/
theorem c10_witness : w1Job.completed_at = none ∧ w1Job.error_message = none :=
  (c10_fields_never_populated settings w1State
    (reachable_of_trace settings w1Trace (by rfl))).1 w1Job (by decide)

/-- Claim C8: for a non-empty job list, the aggregator rule order of
`_update_workflow_progress` holds: any RUNNING job forces RUNNING (even in
the presence of FAILED jobs), else any FAILED job forces FAILED, else a
job set inside {SUCCEEDED, CANCELLED} yields SUCCEEDED, anything else is
PENDING. -/
theorem c8_workflow_status_rules (jobs : List Job) (hne : jobs ≠ []) :
    ((∃ j ∈ jobs, j.state = JobState.RUNNING) →
      workflowStatusOf jobs = WorkflowStatus.RUNNING) ∧
    ((∀ j ∈ jobs, j.state ≠ JobState.RUNNING) →
      (∃ j ∈ jobs, j.state = JobState.FAILED) →
      workflowStatusOf jobs = WorkflowStatus.FAILED) ∧
    ((∀ j ∈ jobs, j.state = JobState.SUCCEEDED ∨ j.state = JobState.CANCELLED) →
      workflowStatusOf jobs = WorkflowStatus.SUCCEEDED) ∧
    ((∀ j ∈ jobs, j.state ≠ JobState.RUNNING) →
      (∀ j ∈ jobs, j.state ≠ JobState.FAILED) →
      (¬ ∀ j ∈ jobs, j.state = JobState.SUCCEEDED ∨ j.state = JobState.CANCELLED) →
      workflowStatusOf jobs = WorkflowStatus.PENDING) := by
  have hmem : ∀ x, x ∈ (jobs.map Job.state).dedup ↔ ∃ j ∈ jobs, j.state = x := by
    intro x
    rw [List.mem_dedup, List.mem_map]
  unfold workflowStatusOf
  refine ⟨?_, ?_, ?_, ?_⟩
  · intro hex
    rw [if_pos ((hmem JobState.RUNNING).2 hex)]
  · intro hnr hex
    rw [if_neg (fun hc => ?_), if_pos ((hmem JobState.FAILED).2 hex)]
    obtain ⟨j, hj, hjs⟩ := (hmem JobState.RUNNING).1 hc
    exact hnr j hj hjs
  · intro hall
    have hnr : JobState.RUNNING ∉ (jobs.map Job.state).dedup := by
      intro hc
      obtain ⟨j, hj, hjs⟩ := (hmem JobState.RUNNING).1 hc
      rcases hall j hj with hh | hh <;> rw [hjs] at hh <;> cases hh
    have hnf : JobState.FAILED ∉ (jobs.map Job.state).dedup := by
      intro hc
      obtain ⟨j, hj, hjs⟩ := (hmem JobState.FAILED).1 hc
      rcases hall j hj with hh | hh <;> rw [hjs] at hh <;> cases hh
    rw [if_neg hnr, if_neg hnf, if_pos ?_]
    rw [List.all_eq_true]
    intro x hx
    obtain ⟨j, hj, hjs⟩ := (hmem x).1 hx
    rcases hall j hj with hh | hh <;> rw [hjs] at hh <;> rw [hh] <;> decide
  · intro hnr hnf hnall
    have hr : JobState.RUNNING ∉ (jobs.map Job.state).dedup := by
      intro hc
      obtain ⟨j, hj, hjs⟩ := (hmem JobState.RUNNING).1 hc
      exact hnr j hj hjs
    have hf : JobState.FAILED ∉ (jobs.map Job.state).dedup := by
      intro hc
      obtain ⟨j, hj, hjs⟩ := (hmem JobState.FAILED).1 hc
      exact hnf j hj hjs
    rw [if_neg hr, if_neg hf, if_neg ?_]
    intro hallb
    rw [List.all_eq_true] at hallb
    apply hnall
    intro j hj
    have hx : j.state ∈ (jobs.map Job.state).dedup :=
      (hmem j.state).2 ⟨j, hj, rfl⟩
    have := hallb _ hx
    rcases hjs : j.state <;> simp_all

/-- Witness for C8: a RUNNING job dominates a FAILED one. -/
theorem c8_witness : workflowStatusOf [c8JobR, c8JobF] = WorkflowStatus.RUNNING :=
  (c8_workflow_status_rules [c8JobR, c8JobF] (by decide)).1
    ⟨c8JobR, List.mem_cons_self _ _, rfl⟩

/-- Claim C9: cancelling a job whose state is not PENDING returns the job
unchanged and mutates nothing, so cancel is idempotent on such jobs. -/
theorem c9_cancel_idempotent (s : SchedState) (u : String) (jid : Nat) (job : Job)
    (hget : s.store.get_job jid = some job) (howner : job.user_id = u)
    (hstate : job.state ≠ JobState.PENDING) :
    cancel_job s u jid = Except.ok (s, job) ∧
    (cancel_job s u jid).bind (fun r => cancel_job r.1 u jid) = cancel_job s u jid := by
  have h1 : cancel_job s u jid = Except.ok (s, job) := by
    unfold cancel_job
    rw [hget]
    dsimp only
    rw [if_neg (fun hh => hh howner), if_pos hstate]
  refine ⟨h1, ?_⟩
  rw [h1]
  exact h1

/-- Witness for C9: cancelling the RUNNING job of a concrete reachable
state is a no-op. -/
theorem c9_witness : cancel_job w1State "u" 0 = Except.ok (w1State, w1Job) :=
  (c9_cancel_idempotent w1State "u" 0 w1Job (by rfl) (by decide) (by decide)).1

/-- Claim C6 counterexample: SUCCEEDED to RUNNING is not a legal forward
transition of the lifecycle DAG, yet `set_job_state` applies it: the call
succeeds and the stored record changes state. -/
theorem c6_counterexample :
    (c6Store.set_job_state 0 JobState.RUNNING none none none none none).2
      = some { c6Job with state := JobState.RUNNING } ∧
    (c6Store.set_job_state 0 JobState.RUNNING none none none none none).1.get_job 0
      = some { c6Job with state := JobState.RUNNING } ∧
    ({ c6Job with state := JobState.RUNNING } : Job) ≠ c6Job := by
  decide

/-- Claim C6 amended: `set_job_state` performs no transition validation at
all: for every stored job and every requested state it succeeds, returns
the record with the requested state, and stores that record; only an
unknown job id yields None. -/
theorem c6_amended (st : Store) (jid : Nat) (ns : JobState) (p : Option ℚ)
    (e : Option String) (sa fa : Option Nat) (rp : Option String) (job : Job)
    (hnd : (st.jobs.map Job.job_id).Nodup) (hget : st.get_job jid = some job) :
    (st.set_job_state jid ns p e sa fa rp).2 = some (applyJobUpdate job ns p sa rp) ∧
    (applyJobUpdate job ns p sa rp).state = ns ∧
    (st.set_job_state jid ns p e sa fa rp).1.get_job jid
      = some (applyJobUpdate job ns p sa rp) := by
  rw [set_job_state_eq ns p e sa fa rp hnd hget]
  refine ⟨rfl, applyJobUpdate_state job ns p sa rp, ?_⟩
  rw [get_job_map_jobsUpd, hget, Option.map_some']
  unfold jobsUpd
  rw [if_pos (by rw [beq_iff_eq]; exact (get_job_mem hget).2)]

/-- Witness for C6 amended: a (still illegal) SUCCEEDED to FAILED update
goes through on a concrete store. -/
theorem c6_witness :
    (c6Store.set_job_state 0 JobState.FAILED none none none none none).2
      = some (applyJobUpdate c6Job JobState.FAILED none none none) ∧
    (applyJobUpdate c6Job JobState.FAILED none none none).state = JobState.FAILED ∧
    (c6Store.set_job_state 0 JobState.FAILED none none none none none).1.get_job 0
      = some (applyJobUpdate c6Job JobState.FAILED none none none) :=
  c6_amended c6Store 0 JobState.FAILED none none none none none c6Job
    (by decide) (by rfl)

/-- Claim C7 counterexample: `create_job` succeeds, stores the job and
appends its id to the workflow job list both when the workflow id exists
in no store (empty store, id 99) and when the workflow belongs to another
user (store where workflow 0 is owned by bob, caller alice). -/
theorem c7_counterexample :
    ((Store.empty.create_job "alice" c7Payload 0).1.jobs.length = 1 ∧
      alookup (Store.empty.create_job "alice" c7Payload 0).1.workflow_jobs 99
        = some [0] ∧
      (Store.empty.create_job "alice" c7Payload 0).2.state = JobState.PENDING) ∧
    ((c7StoreB.create_job "alice" (payload 0 "main") 0).1.jobs.length = 1 ∧
      alookup (c7StoreB.create_job "alice" (payload 0 "main") 0).1.workflow_jobs 0
        = some [1] ∧
      (c7StoreB.get_workflow 0).map Workflow.user_id = some "bob") := by
  decide

/-- Claim C7 amended: `Store.create_job` performs no workflow validation
and never fails: it always creates a fresh PENDING job for the calling
user and appends its id to the job list of the given workflow id, whether
or not that workflow exists or belongs to someone else. -/
theorem c7_amended (st : Store) (u : String) (p : JobCreate) (now : Nat) :
    (st.create_job u p now).2 = freshJob st u p now ∧
    (freshJob st u p now).state = JobState.PENDING ∧
    (freshJob st u p now).user_id = u ∧
    (st.create_job u p now).1.jobs = st.jobs ++ [freshJob st u p now] ∧
    alookup (st.create_job u p now).1.workflow_jobs p.workflow_id
      = some (((alookup st.workflow_jobs p.workflow_id).getD []) ++ [st.nextId]) := by
  rw [create_job_eq]
  exact ⟨rfl, rfl, rfl, rfl, alookup_aset_eq _ _ _⟩

/-- Claim C4 counterexample: after the schedule `c4Trace`, user u1 still
has a PENDING job, yet completing its only RUNNING job removed u1 from the
active-user set. -/
theorem c4_counterexample :
    Reachable settings c4Final ∧
    ((c4Final.store.jobs.filter
        (fun j => j.user_id == "u1" && j.state == JobState.PENDING)).length = 1 ∧
      "u1" ∉ c4Final.activeUsers) :=
  ⟨reachable_of_trace settings c4Trace (by rfl), by decide⟩

/-- Claim C4 amended: when a finishing worker drops the running count of
its user to zero the user is removed from the active set unconditionally;
no check for remaining PENDING jobs of that user is performed. -/
theorem c4_amended (cfg : Settings) (s s' : SchedState) (w jid wfid : Nat)
    (u : String) (h : Reachable cfg s)
    (hw : nth s.workers w = some (WPhase.executing jid u wfid 10))
    (hcnt : (alookup s.userRunningCounts u).getD 0 ≤ 1)
    (hstep : stepFn cfg (Step.run w) s = some s') :
    u ∉ s'.activeUsers := by
  have hinv := inv_reachable h
  simp only [stepFn] at hstep
  rw [hw] at hstep
  dsimp only at hstep
  rw [if_neg (by omega)] at hstep
  repeat' split at hstep
  all_goals (
    cases hstep
    intro hmem
    dsimp only at hmem
    simp only [ojc_activeUsers, uwp_activeUsers] at hmem
    first
      | exact (hinv.activeNodup.mem_erase_iff.1 hmem).1 rfl
      | (simp_all only [not_true, if_true, if_false, ojc_userRunningCounts,
           uwp_userRunningCounts] <;> omega))

/-- Witness for C4 amended: the last transition of `c4Trace` removes u1
from the active set. -/
theorem c4_witness : "u1" ∉ c4Final.activeUsers :=
  c4_amended settings c4Pre c4Final 0 0 0 "u1"
    (reachable_of_trace settings (c4Trace.take 12) (by rfl))
    (by decide) (by decide) (by rfl)

/-- Claim C2, failing schedule: in the reachable state `c2Final` the ghost
dispatch log contains an event whose job record was CANCELLED at dispatch
time and which was not at the head of its branch queue (it had been
removed from it by the cancellation), and that job now sits in state
RUNNING: a job that was not the head of its branch queue was started. -/
theorem c2_cancelled_job_dispatched :
    Reachable settings c2Final ∧
    ((c2Final.startLog.filter
        (fun e => e.priorState == JobState.CANCELLED)).length = 1 ∧
      (c2Final.startLog.filter (fun e => e.wasHead == false)).length = 1 ∧
      (c2Final.startLog.filter
        (fun e => e.priorState == JobState.CANCELLED
          && e.wasHead == false && e.jobId == 3)).length = 1 ∧
      (c2Final.store.jobs.filter
        (fun j => j.job_id == 3 && j.state == JobState.RUNNING)).length = 1) :=
  ⟨reachable_of_trace settings c2Trace (by rfl), by decide⟩

/-- Claim C5, failing schedule: along `c5Trace` one user receives 21
dispatch admissions while the clock never advances, so all of them fall
inside any window ending at the current instant; this exceeds
USER_JOB_RATE_LIMIT = 20, and no admission was ever denied (all 21 jobs
were dispatched): the worker loop consults no rate limiter. -/
theorem c5_no_rate_limit :
    Reachable settings c5Final ∧
    (c5Final.now = 0 ∧
      c5Final.startLog.all (fun e => e.user == "u" && e.time == 0) = true ∧
      c5Final.startLog.length = 21 ∧
      settings.USER_JOB_RATE_LIMIT < c5Final.startLog.length) :=
  ⟨reachable_of_trace settings c5Trace (by rfl), by decide⟩

end LabScheduler
